import Mathlib

/-!
Verification of the ast2400mf pin-mux table analyser.

The program parses a textual pin table (one pin per line, each carrying
boolean selection expressions over register-bit descriptors) and groups the
parsed signals into "networks" connected by shared configuration bits.

Strings are modelled as lists of characters (`Str`).  Python exceptions
(IndexError, ValueError, AttributeError, the sys.exit diagnostic) are
modelled by `Option`/`Except` results.  Every definition follows the
corresponding function of ast2400mf.py; line numbers refer to that file.
-/

abbrev Str := List Char

/-- Python str.strip (ASCII whitespace at both ends). -/
def pyStrip (s : Str) : Str :=
  ((s.dropWhile Char.isWhitespace).reverse.dropWhile Char.isWhitespace).reverse

/-- Python `c in s` for a single character. -/
def hasChar (c : Char) (s : Str) : Bool := s.any (fun x => x = c)

/-- Python str.split(sep) for a one-character separator: splits at every
occurrence and keeps empty fields (`"a,,b" -> ["a","","b"]`, `"" -> [""]`). -/
def splitOnChar (c : Char) : Str → List Str
  | [] => [[]]
  | x :: xs =>
    match splitOnChar c xs with
    | [] => [[x]]   -- unreachable: splitOnChar never returns []
    | y :: ys => if x = c then [] :: y :: ys else (x :: y) :: ys

theorem splitOnChar_ne_nil (c : Char) (s : Str) : splitOnChar c s ≠ [] := by
  cases s with
  | nil => simp [splitOnChar]
  | cons x xs =>
    simp only [splitOnChar]
    rcases h : splitOnChar c xs with _ | ⟨y, ys⟩
    · simp
    · by_cases hx : x = c <;> simp [hx]

theorem splitOnChar_length_le (c : Char) :
    ∀ (s : Str), ∀ p ∈ splitOnChar c s, p.length ≤ s.length := by
  intro s
  induction s with
  | nil => intro p hp; simp [splitOnChar] at hp; simp [hp]
  | cons x xs ih =>
    intro p hp
    simp only [splitOnChar] at hp
    rcases h : splitOnChar c xs with _ | ⟨y, ys⟩
    · exact absurd h (splitOnChar_ne_nil c xs)
    · rw [h] at hp
      by_cases hx : x = c
      · simp [hx] at hp
        rcases hp with hp | hp | hp
        · simp [hp]
        · have := ih y (by rw [h]; exact List.mem_cons_self y ys)
          simp [hp]; omega
        · have := ih p (by rw [h]; exact List.mem_cons_of_mem y hp)
          simp; omega
      · simp [hx] at hp
        rcases hp with hp | hp
        · have := ih y (by rw [h]; exact List.mem_cons_self y ys)
          simp [hp]; omega
        · have := ih p (by rw [h]; exact List.mem_cons_of_mem y hp)
          simp; omega

theorem splitOnChar_length_lt (c : Char) :
    ∀ (s : Str), hasChar c s = true → ∀ p ∈ splitOnChar c s, p.length < s.length := by
  intro s
  induction s with
  | nil => intro hc; simp [hasChar] at hc
  | cons x xs ih =>
    intro hc p hp
    simp only [splitOnChar] at hp
    rcases h : splitOnChar c xs with _ | ⟨y, ys⟩
    · exact absurd h (splitOnChar_ne_nil c xs)
    · rw [h] at hp
      by_cases hx : x = c
      · simp [hx] at hp
        rcases hp with hp | hp | hp
        · simp [hp]
        · have := splitOnChar_length_le c xs y (by rw [h]; exact List.mem_cons_self y ys)
          simp [hp]; omega
        · have := splitOnChar_length_le c xs p (by rw [h]; exact List.mem_cons_of_mem y hp)
          simp; omega
      · have hcxs : hasChar c xs = true := by
          simp [hasChar] at hc ⊢
          rcases hc with hc | hc
          · exact absurd hc hx
          · exact hc
        simp [hx] at hp
        rcases hp with hp | hp
        · have := ih hcxs y (by rw [h]; exact List.mem_cons_self y ys)
          simp [hp]; omega
        · have := ih hcxs p (by rw [h]; exact List.mem_cons_of_mem y hp)
          simp; omega

/-- Value of a decimal digit character. -/
def digitVal (c : Char) : Nat := c.toNat - 48

/-- Python int() on the strings reachable here (fields drawn from the
descriptor bit-spec charset `[0-9:,]`): a non-empty all-digit string denotes
its decimal value, anything else raises ValueError (`none`). -/
def pyInt (s : Str) : Option Nat :=
  if s ≠ [] ∧ s.all Char.isDigit then
    some (s.foldl (fun acc c => acc * 10 + digitVal c) 0)
  else none

/-- ast2400mf.py lines 14-24, get_mask_bits: normalize a descriptor bit-spec
to the set of individual bit positions.  A comma splits into disjoint specs
whose bit sets are unioned; `hi:lo` denotes `range(lo, hi+1)`; otherwise the
spec is a single decimal index.  `none` models the ValueError raised by
int() on a malformed field. -/
def get_mask_bits (mask : Str) : Option (Finset Nat) :=
  if h : hasChar ',' mask then
    (((splitOnChar ',' mask).attach.mapM
        (fun (p : {x // x ∈ splitOnChar ',' mask}) =>
          get_mask_bits p.val)) :
      Option (List (Finset Nat))).map
      (fun l => l.foldr (fun a b => a ∪ b) ∅)
  else if hasChar ':' mask then
    match (splitOnChar ':' mask).mapM pyInt with
    | some (hi :: lo :: _) => some (Finset.Icc lo hi)
    | _ => none
  else (pyInt mask).map (fun n => {n})
termination_by mask.length
decreasing_by
exact splitOnChar_length_lt ',' mask h p.val p.property

/-- Characters allowed by the regex class [A-F0-9]. -/
def isHexUp (c : Char) : Bool := c.isDigit || (65 ≤ c.toNat && c.toNat ≤ 70)

/-- Characters allowed by the regex class [0-9:,]. -/
def isMaskChar (c : Char) : Bool := c.isDigit || c = ':' || c = ','

/-- The register-name alternation `SCU[A-F0-9]+|Strap|SIORD_30` anchored at
the start of a token (the three branches have pairwise distinct openings, so
the regex alternation needs no cross-branch backtracking).  Returns the
matched name and the rest of the token. -/
def regMatch (s : Str) : Option (Str × Str) :=
  if ("SCU".data).isPrefixOf s then
    let hex := (s.drop 3).takeWhile isHexUp
    if hex = [] then none
    else some ("SCU".data ++ hex, (s.drop 3).dropWhile isHexUp)
  else if ("Strap".data).isPrefixOf s then some ("Strap".data, s.drop 5)
  else if ("SIORD_30".data).isPrefixOf s then some ("SIORD_30".data, s.drop 8)
  else none

/-- The anchored descriptor regex `^(SCU[A-F0-9]+|Strap|SIORD_30)\[([0-9:,]+)\]`
of parse_pd (line 27): returns (register name, bit-spec, whole match). -/
def pdMatch (s : Str) : Option (Str × Str × Str) :=
  match regMatch s with
  | none => none
  | some (reg, rest) =>
    match rest with
    | '[' :: r2 =>
      let bits := r2.takeWhile isMaskChar
      if bits = [] then none
      else
        match r2.drop bits.length with
        | ']' :: _ => some (reg, bits, reg ++ '[' :: (bits ++ [']']))
        | _ => none
    | _ => none

/-- Python str.replace(pat, ""): remove every (left-to-right, non-overlapping)
occurrence of pat.  The empty pattern never arises at the call sites. -/
def replaceAll (s pat : Str) : Str :=
  if h : pat = [] then s
  else
    match s with
    | [] => []
    | c :: cs =>
      if hp : pat.isPrefixOf (c :: cs) then
        replaceAll ((c :: cs).drop pat.length) pat
      else c :: replaceAll cs pat
termination_by s.length
decreasing_by
· have hpos : 0 < pat.length := List.length_pos.mpr h
  rw [List.length_drop]
  simp only [List.length_cons]
  omega
· simp only [List.length_cons]
  omega

theorem replaceAll_length_le_aux (n : Nat) :
    ∀ s pat : Str, s.length ≤ n → (replaceAll s pat).length ≤ s.length := by
  induction n with
  | zero =>
    intro s pat hs
    have hs0 : s = [] := List.length_eq_zero.mp (Nat.le_zero.mp hs)
    subst hs0
    rw [replaceAll.eq_def]
    by_cases h : pat = [] <;> simp [h]
  | succ n ih =>
    intro s pat hs
    rw [replaceAll.eq_def]
    by_cases h : pat = []
    · simp [h]
    · simp only [dif_neg h]
      cases s with
      | nil => simp
      | cons c cs =>
        dsimp only
        by_cases hp : pat.isPrefixOf (c :: cs)
        · rw [dif_pos hp]
          have hpos : 0 < pat.length := List.length_pos.mpr h
          have hdl : ((c :: cs).drop pat.length).length = (c :: cs).length - pat.length :=
            List.length_drop _ _
          have h2 : ((c :: cs).drop pat.length).length ≤ n := by
            simp only [List.length_cons] at hdl hs ⊢
            omega
          have h3 := ih _ pat h2
          simp only [List.length_cons] at hdl ⊢
          omega
        · rw [dif_neg hp]
          have h2 : cs.length ≤ n := by
            simp only [List.length_cons] at hs; omega
          have h3 := ih cs pat h2
          simp only [List.length_cons]
          omega

theorem replaceAll_length_le (s pat : Str) : (replaceAll s pat).length ≤ s.length :=
  replaceAll_length_le_aux s.length s pat le_rfl

theorem replaceAll_length_lt_aux (n : Nat) :
    ∀ s pat : Str, s.length ≤ n → pat ≠ [] → pat <:+: s →
      (replaceAll s pat).length < s.length := by
  induction n with
  | zero =>
    intro s pat hs hne hinf
    have hs0 : s = [] := List.length_eq_zero.mp (Nat.le_zero.mp hs)
    subst hs0
    rcases hinf with ⟨l, r, hl⟩
    have hlen := congrArg List.length hl
    simp only [List.length_append, List.length_nil] at hlen
    exact absurd (List.length_eq_zero.mp (by omega)) hne
  | succ n ih =>
    intro s pat hs hne hinf
    rw [replaceAll.eq_def]
    simp only [dif_neg hne]
    cases s with
    | nil =>
      rcases hinf with ⟨l, r, hl⟩
      have hlen := congrArg List.length hl
      simp only [List.length_append, List.length_nil] at hlen
      exact absurd (List.length_eq_zero.mp (by omega)) hne
    | cons c cs =>
      dsimp only
      by_cases hp : pat.isPrefixOf (c :: cs)
      · rw [dif_pos hp]
        have hpos : 0 < pat.length := List.length_pos.mpr hne
        have hle := replaceAll_length_le ((c :: cs).drop pat.length) pat
        have hdl : ((c :: cs).drop pat.length).length = (c :: cs).length - pat.length :=
          List.length_drop _ _
        simp only [List.length_cons] at hdl ⊢
        omega
      · rw [dif_neg hp]
        have hinf2 : pat <:+: cs := by
          rcases hinf with ⟨l, r, hl⟩
          cases l with
          | nil =>
            exfalso
            apply hp
            rw [List.isPrefixOf_iff_prefix]
            exact ⟨r, by simpa using hl⟩
          | cons d ds =>
            refine ⟨ds, r, ?_⟩
            have h2 := hl
            simp only [List.cons_append, List.cons.injEq] at h2
            exact h2.2
        have h2 : cs.length ≤ n := by
          simp only [List.length_cons] at hs; omega
        have := ih cs pat h2 hne hinf2
        simp only [List.length_cons]
        omega

theorem replaceAll_length_lt (s pat : Str) (hne : pat ≠ []) (hinf : pat <:+: s) :
    (replaceAll s pat).length < s.length :=
  replaceAll_length_lt_aux s.length s pat le_rfl hne hinf

structure pd_t where
  reg : Str
  mask : Finset Nat
deriving DecidableEq

inductive BopOp where
  | eq
  | ne
  | band
  | bor
deriving DecidableEq

/-- Python `op in ["=", "!="]` (line 62 and is_simple, line 110). -/
def BopOp.isCmp : BopOp → Bool
  | .eq => true
  | .ne => true
  | _ => false

/-- The operator string mat.group(1) of parse_bop. -/
def bopStr : BopOp → Str
  | .eq => "=".data
  | .ne => "!=".data
  | .band => "&".data
  | .bor => "|".data

/-- Dynamic values flowing through the expression parser: a descriptor
(pd_t), a literal (kept as its digit string, as Python does), a binary
node bop_t(type, a, b), or Python None -- which parse_expr can both return
and, through the one-token-lookahead overwrite on lines 74 and 83, place
in a child slot of a node. -/
inductive Val where
  | noneV
  | pdV (p : pd_t)
  | litV (s : Str)
  | bopV (op : BopOp) (a b : Val)
deriving DecidableEq

/-- Lines 26-35, parse_pd.  On a match the whole matched text is removed
from the token (str.replace replaces every occurrence) and the remaining
tokens pass through.  Outer `none` models the ValueError raised by
get_mask_bits on a malformed bit-spec.  parse_pd is only applied to
non-empty token lists (parse_arg guards); the [] equation is vacuous. -/
def parse_pd (toks : List Str) : Option (Option pd_t × List Str) :=
  match toks with
  | [] => some (none, [])
  | t :: rest =>
    match pdMatch t with
    | none => some (none, t :: rest)
    | some (reg, bitspec, whole) =>
      match get_mask_bits bitspec with
      | none => none
      | some bits => some (some ⟨reg, bits⟩, replaceAll t whole :: rest)

/-- Lines 37-43, parse_lit: a token that is entirely decimal digits
(regex ^([0-9]+)$), kept as its string. -/
def parse_lit (toks : List Str) : Option Str × List Str :=
  match toks with
  | [] => (none, [])   -- unreachable: guarded by parse_arg
  | t :: rest =>
    if t ≠ [] ∧ t.all Char.isDigit then (some t, rest)
    else (none, t :: rest)

/-- Lines 45-51, parse_arg: try a descriptor, then a literal.  Returns
`(noneV, none)` for empty input (Python (None, None)); `(noneV, some toks)`
when neither pattern matches; outer `none` for an escaping ValueError. -/
def parse_arg (toks : List Str) : Option (Val × Option (List Str)) :=
  match toks with
  | [] => some (.noneV, none)
  | t :: rest =>
    match parse_pd (t :: rest) with
    | none => none
    | some (some pd, toks2) => some (.pdV pd, some toks2)
    | some (none, _) =>
      match parse_lit (t :: rest) with
      | (some l, toks2) => (some (.litV l, some toks2) : Option (Val × Option (List Str)))
      | (none, toks2) => some (.noneV, some toks2)

/-- First match of the regex `(!?=|[&|])` inside a token, scanning left to
right: `!=` where `!` is immediately followed by `=`, else the first of
`=`, `&`, `|`. -/
def bopScan : Str → Option BopOp
  | [] => none
  | c :: rest =>
    if c = '!' ∧ rest.head? = some '=' then some .ne
    else if c = '=' then some .eq
    else if c = '&' then some .band
    else if c = '|' then some .bor
    else bopScan rest

/-- Lines 53-65, parse_bop: find the first operator in the head token; for
`=` and `!=` strip every occurrence of the matched text from that token
(a comparison may be packed gaplessly, e.g. `SCU70[0]=1`); `&` and `|`
consume the whole token. -/
def parse_bop (toks : List Str) : Option BopOp × Option (List Str) :=
  match toks with
  | [] => (none, none)
  | t :: rest =>
    match bopScan t with
    | none => (none, some (t :: rest))
    | some op =>
      if op.isCmp then (some op, some (replaceAll t (bopStr op) :: rest))
      else (some op, some rest)

/-- Size of a token list: total characters plus token count.  parse_pd and
the =/!= branch of parse_bop strictly shrink the head token; the other
consuming branches drop a whole token. -/
def toksMeasure (toks : List Str) : Nat :=
  toks.foldr (fun t acc => t.length + 1 + acc) 0

theorem toksMeasure_cons (t : Str) (rest : List Str) :
    toksMeasure (t :: rest) = t.length + 1 + toksMeasure rest := rfl

theorem toksMeasure_take1_le (l : List Str) : toksMeasure (l.take 1) ≤ toksMeasure l := by
  cases l with
  | nil => simp [toksMeasure]
  | cons t rest =>
    simp only [List.take_succ_cons, List.take_zero, toksMeasure_cons]
    have : toksMeasure [] = 0 := rfl
    omega

theorem toksMeasure_drop1_lt (l : List Str) (h : l ≠ []) :
    toksMeasure (l.drop 1) < toksMeasure l := by
  cases l with
  | nil => exact absurd rfl h
  | cons t rest =>
    simp only [List.drop_succ_cons, List.drop_zero, toksMeasure_cons]
    omega

theorem regMatch_decomp (s reg rest : Str) (h : regMatch s = some (reg, rest)) :
    s = reg ++ rest ∧ reg ≠ [] := by
  unfold regMatch at h
  by_cases h1 : ("SCU".data).isPrefixOf s
  · simp only [if_pos h1] at h
    by_cases h2 : (s.drop 3).takeWhile isHexUp = []
    · simp [h2] at h
    · simp only [if_neg h2, Option.some.injEq, Prod.mk.injEq] at h
      obtain ⟨hreg, hrest⟩ := h
      rcases List.isPrefixOf_iff_prefix.mp h1 with ⟨r, hr⟩
      have hdrop : s.drop 3 = r := by
        rw [← hr]
        have h3 : ("SCU".data).length = 3 := by decide
        rw [← h3]
        exact List.drop_left _ _
      constructor
      · rw [← hreg, ← hrest, hdrop, List.append_assoc, List.takeWhile_append_dropWhile]
        exact hr.symm
      · rw [← hreg]; simp
  · simp only [if_neg h1] at h
    by_cases h2 : ("Strap".data).isPrefixOf s
    · simp only [if_pos h2, Option.some.injEq, Prod.mk.injEq] at h
      obtain ⟨hreg, hrest⟩ := h
      rcases List.isPrefixOf_iff_prefix.mp h2 with ⟨r, hr⟩
      have hdrop : s.drop 5 = r := by
        rw [← hr]
        have h3 : ("Strap".data).length = 5 := by decide
        rw [← h3]
        exact List.drop_left _ _
      constructor
      · rw [← hreg, ← hrest, hdrop, ← hr]
      · rw [← hreg]; simp
    · simp only [if_neg h2] at h
      by_cases h3 : ("SIORD_30".data).isPrefixOf s
      · simp only [if_pos h3, Option.some.injEq, Prod.mk.injEq] at h
        obtain ⟨hreg, hrest⟩ := h
        rcases List.isPrefixOf_iff_prefix.mp h3 with ⟨r, hr⟩
        have hdrop : s.drop 8 = r := by
          rw [← hr]
          have h4 : ("SIORD_30".data).length = 8 := by decide
          rw [← h4]
          exact List.drop_left _ _
        constructor
        · rw [← hreg, ← hrest, hdrop, ← hr]
        · rw [← hreg]; simp
      · simp [h3] at h

theorem pdMatch_whole (t reg bits whole : Str)
    (h : pdMatch t = some (reg, bits, whole)) : whole ≠ [] ∧ whole <+: t := by
  unfold pdMatch at h
  rcases hr : regMatch t with _ | ⟨reg0, rest⟩
  · rw [hr] at h; simp at h
  · rw [hr] at h
    obtain ⟨hdec, hne0⟩ := regMatch_decomp t reg0 rest hr
    rcases rest with _ | ⟨c, r2⟩
    · simp at h
    · by_cases hc : c = '['
      · subst hc
        simp only at h
        set tw := r2.takeWhile isMaskChar with htw
        by_cases hb : tw = []
        · simp [hb] at h
        · simp only [if_neg hb] at h
          rcases hdr : r2.drop tw.length with _ | ⟨c2, tail⟩
          · rw [hdr] at h; simp at h
          · rw [hdr] at h
            by_cases hc2 : c2 = ']'
            · subst hc2
              simp only [Option.some.injEq, Prod.mk.injEq] at h
              obtain ⟨hreg, hbits, hwhole⟩ := h
              rcases List.takeWhile_prefix (l := r2) (p := isMaskChar) with ⟨tl, htl⟩
              rw [← htw] at htl
              have hdrop2 : r2.drop tw.length = tl := by
                calc r2.drop tw.length = (tw ++ tl).drop tw.length := by rw [htl]
                  _ = tl := List.drop_left _ _
              have htail : tl = ']' :: tail := hdrop2.symm.trans hdr
              constructor
              · rw [← hwhole]; simp
              · refine ⟨tail, ?_⟩
                calc whole ++ tail
                    = (reg0 ++ '[' :: (tw ++ [']'])) ++ tail := by rw [hwhole]
                  _ = reg0 ++ '[' :: (tw ++ (']' :: tail)) := by simp [List.append_assoc]
                  _ = reg0 ++ '[' :: (tw ++ tl) := by rw [htail]
                  _ = reg0 ++ '[' :: r2 := by rw [htl]
                  _ = t := hdec.symm
            · rcases c2 with ⟨n⟩
              simp [hc2] at h
      · rcases c with ⟨n⟩
        simp [hc] at h

theorem bopScan_isInfix (t : Str) (op : BopOp) (h : bopScan t = some op)
    (hc : op.isCmp = true) : bopStr op <:+: t := by
  induction t with
  | nil => simp [bopScan] at h
  | cons c rest ih =>
    rw [bopScan] at h
    by_cases h1 : c = '!' ∧ rest.head? = some '='
    · simp only [if_pos h1] at h
      injection h with h
      subst h
      obtain ⟨hc1, hh⟩ := h1
      subst hc1
      rcases rest with _ | ⟨c2, r2⟩
      · simp at hh
      · simp only [List.head?_cons, Option.some.injEq] at hh
        subst hh
        exact ⟨[], ('!' :: '=' :: r2).drop 2, rfl⟩
    · simp only [if_neg h1] at h
      by_cases h2 : c = '='
      · simp only [if_pos h2] at h
        injection h with h
        subst h
        subst h2
        exact ⟨[], rest, rfl⟩
      · simp only [if_neg h2] at h
        by_cases h3 : c = '&'
        · simp only [if_pos h3] at h
          injection h with h
          subst h
          exact absurd hc (by decide)
        · simp only [if_neg h3] at h
          by_cases h4 : c = '|'
          · simp only [if_pos h4] at h
            injection h with h
            subst h
            exact absurd hc (by decide)
          · simp only [if_neg h4] at h
            rcases ih h with ⟨l, r, hlr⟩
            exact ⟨c :: l, r, by rw [← hlr]; simp⟩

theorem parse_arg_shrink (toks : List Str) (arg : Val) (tk2 : Option (List Str))
    (h : parse_arg toks = some (arg, tk2)) (hne : arg ≠ .noneV) :
    ∃ l, tk2 = some l ∧ toksMeasure l < toksMeasure toks := by
  rcases toks with _ | ⟨t, rest⟩
  · rw [parse_arg] at h
    simp only [Option.some.injEq, Prod.mk.injEq] at h
    exact absurd h.1.symm hne
  · rw [parse_arg] at h
    rcases hpd : parse_pd (t :: rest) with _ | ⟨opd, toks2⟩
    · rw [hpd] at h; exact absurd h (by simp)
    · rw [hpd] at h
      rcases opd with _ | pd
      · simp only at h
        rcases hlit : parse_lit (t :: rest) with ⟨olit, toks3⟩
        rw [hlit] at h
        rcases olit with _ | l
        · simp only [Option.some.injEq, Prod.mk.injEq] at h
          exact absurd h.1.symm hne
        · simp only [Option.some.injEq, Prod.mk.injEq] at h
          obtain ⟨harg, htk⟩ := h
          rw [parse_lit] at hlit
          by_cases hd : t ≠ [] ∧ t.all Char.isDigit
          · simp only [if_pos hd, Prod.mk.injEq, Option.some.injEq] at hlit
            refine ⟨toks3, htk.symm ▸ rfl, ?_⟩
            rw [← hlit.2, toksMeasure_cons]
            omega
          · simp only [if_neg hd, Prod.mk.injEq] at hlit
            exact absurd hlit.1 (by simp)
      · simp only [Option.some.injEq, Prod.mk.injEq] at h
        obtain ⟨harg, htk⟩ := h
        rcases hm : pdMatch t with _ | ⟨reg, bits, whole⟩
        · simp only [parse_pd, hm, Option.some.injEq, Prod.mk.injEq] at hpd
          exact absurd hpd.1 (by simp)
        · rcases hg : get_mask_bits bits with _ | bset
          · simp only [parse_pd, hm, hg] at hpd
            exact Option.noConfusion hpd
          · simp only [parse_pd, hm, hg, Option.some.injEq, Prod.mk.injEq] at hpd
            obtain ⟨-, htoks2⟩ := hpd
            refine ⟨toks2, htk.symm ▸ rfl, ?_⟩
            rw [← htoks2, toksMeasure_cons, toksMeasure_cons]
            obtain ⟨hwne, hwpre⟩ := pdMatch_whole t reg bits whole hm
            have := replaceAll_length_lt t whole hwne hwpre.isInfix
            omega

theorem parse_bop_shrink (toks : List Str) (op : BopOp) (tks1 : List Str)
    (h : parse_bop toks = (some op, some tks1)) :
    toksMeasure tks1 < toksMeasure toks := by
  rcases toks with _ | ⟨t, rest⟩
  · rw [parse_bop] at h; simp at h
  · rw [parse_bop] at h
    rcases hs : bopScan t with _ | op2
    · rw [hs] at h; simp at h
    · rw [hs] at h
      by_cases hcmp : op2.isCmp
      · simp only [if_pos hcmp, Prod.mk.injEq, Option.some.injEq] at h
        obtain ⟨hop, htk⟩ := h
        rw [← htk, toksMeasure_cons, toksMeasure_cons]
        have hinf := bopScan_isInfix t op2 hs hcmp
        have hne : bopStr op2 ≠ [] := by cases op2 <;> simp [bopStr]
        have := replaceAll_length_lt t (bopStr op2) hne hinf
        omega
      · simp only [if_neg hcmp, Prod.mk.injEq, Option.some.injEq] at h
        obtain ⟨hop, htk⟩ := h
        rw [← htk, toksMeasure_cons]
        omega

mutual

/-- Lines 67-75 of parse_expr: on an empty token list return (None, None);
with no accumulated argument, read one (line 71), give up if there is none
(lines 72-73), refine it against a one-token lookahead slice of the residual
(line 74, `a, _ = parse_expr(_toks[:1], a)` -- note the refined value can
itself be None, which then flows on unchecked), advance the cursor (line 75)
and continue with the shared tail (lines 76-86, parseTail).  A caller-given
argument goes straight to the tail.  Outer `none` models an escaping
ValueError. -/
def parse_expr (toks : List Str) (a : Val) : Option (Val × Option (List Str)) :=
  if htk : toks = [] then some (.noneV, none)
  else
    match a with
    | .noneV =>
      match h1 : parse_arg toks with
      | none => none
      | some (arg, toks2) =>
        if harg : arg = .noneV then some (.noneV, some toks)
        else
          match parse_expr ((toks2.getD []).take 1) arg with
          | none => none
          | some (a2, _) => parseTail (toks.drop 1) a2
    | .pdV p => parseTail toks (.pdV p)
    | .litV s => parseTail toks (.litV s)
    | .bopV op x y => parseTail toks (.bopV op x y)
termination_by (toksMeasure toks, 1)
decreasing_by
· apply Prod.Lex.left
  obtain ⟨l, hl, hlt⟩ := parse_arg_shrink toks arg toks2 h1 harg
  subst hl
  calc toksMeasure (((some l).getD []).take 1) ≤ toksMeasure l := toksMeasure_take1_le l
    _ < toksMeasure toks := hlt
· apply Prod.Lex.left
  exact toksMeasure_drop1_lt toks htk
· apply Prod.Lex.right
  omega
· apply Prod.Lex.right
  omega
· apply Prod.Lex.right
  omega

/-- Lines 76-86 of parse_expr: read an operator (no operator: return the
accumulated value, lines 77-78), read the next argument (none: fail, lines
80-81), refine it against a one-token lookahead when tokens remain (lines
82-83), build bop_t(bop, a, b) (line 84) and recurse on the advanced cursor
(line 85); line 86 keeps the freshly built node when the recursion returned
None. -/
def parseTail (toks : List Str) (a : Val) : Option (Val × Option (List Str)) :=
  match h1 : parse_bop toks with
  | (none, tks) => some (a, tks)
  | (some _, none) => none   -- unreachable: a matched operator returns tokens
  | (some op, some tks1) =>
    match h2 : parse_arg tks1 with
    | none => none
    | some (b0, toks2) =>
      if hb : b0 = .noneV then some (.noneV, some tks1)
      else
        match h3 : toks2 with
        | some (x :: xs) =>
          match parse_expr [x] b0 with
          | none => none
          | some (b2, _) =>
            match parse_expr (tks1.drop 1) (.bopV op a b2) with
            | none => none
            | some (.noneV, tks3) => some (.bopV op a b2, tks3)
            | some (e2, tks3) => some (e2, tks3)
        | _ =>
          match parse_expr (tks1.drop 1) (.bopV op a b0) with
          | none => none
          | some (.noneV, tks3) => some (.bopV op a b0, tks3)
          | some (e2, tks3) => some (e2, tks3)
termination_by (toksMeasure toks, 0)
decreasing_by
· apply Prod.Lex.left
  obtain ⟨l, hl, hlt⟩ := parse_arg_shrink tks1 b0 (some (x :: xs)) h2 hb
  have hx : l = x :: xs := (Option.some.inj hl).symm
  have h4 : toksMeasure [x] ≤ toksMeasure (x :: xs) := by
    rw [toksMeasure_cons, toksMeasure_cons]
    have h0 : toksMeasure ([] : List Str) = 0 := rfl
    omega
  have h5 := parse_bop_shrink toks op tks1 h1
  calc toksMeasure [x] ≤ toksMeasure (x :: xs) := h4
    _ = toksMeasure l := by rw [hx]
    _ < toksMeasure tks1 := hlt
    _ < toksMeasure toks := h5
· apply Prod.Lex.left
  have h5 := parse_bop_shrink toks op tks1 h1
  calc toksMeasure (tks1.drop 1) ≤ toksMeasure tks1 := by
        cases tks1 with
        | nil => simp [toksMeasure]
        | cons u us =>
          simp only [List.drop_succ_cons, List.drop_zero, toksMeasure_cons]
          omega
    _ < toksMeasure toks := h5
· apply Prod.Lex.left
  have h5 := parse_bop_shrink toks op tks1 h1
  calc toksMeasure (tks1.drop 1) ≤ toksMeasure tks1 := by
        cases tks1 with
        | nil => simp [toksMeasure]
        | cons u us =>
          simp only [List.drop_succ_cons, List.drop_zero, toksMeasure_cons]
          omega
    _ < toksMeasure toks := h5

end

/-- sig_t as built by parse_sig: name and expression value (noneV models a
signal whose expression failed to parse, Python sig_t(sig, None)). -/
structure sigV where
  sig : Str
  expr : Val
deriving DecidableEq

/-- pin_t as built by gen_pins (parser-level, dynamic values). -/
structure pinV where
  pin : Str
  default : Str
  high : Option sigV
  low : Option sigV
  other : Str
deriving DecidableEq

/-- Lines 88-93, parse_sig: first token is the signal name, the rest feed
parse_expr.  The argument is `none` when Python receives None (falsy like
the empty list, line 89). -/
def parse_sig (toks : Option (List Str)) : Option (Option sigV × Option (List Str)) :=
  match toks with
  | none => some (none, none)
  | some [] => some (none, none)
  | some (t :: rest) =>
    match parse_expr rest .noneV with
    | none => none
    | some (e, toks2) => some (some ⟨t, e⟩, toks2)

/-- Lines 95-108, gen_pins: skip blank lines, split each line on single
spaces, read the pin name (toks[0]), default function (toks[1]) and group
label (toks[-1]), parse the high clause from toks[2:-1] and the low clause
from its leftover, and keep the record unless a truthy filter excludes its
label (`if filt and d["other"] not in filt: continue`).  `none` models an
uncaught exception: IndexError on a one-token line (toks[1]), or a
ValueError escaping the expression parser. -/
def gen_pins (src : List Str) (filt : Option (List Str)) : Option (List pinV) :=
  match src with
  | [] => some []
  | line :: rest =>
    if pyStrip line = [] then gen_pins rest filt
    else
      match splitOnChar ' ' (pyStrip line) with
      | t0 :: t1 :: rest2 =>
        match parse_sig (some (((t0 :: t1 :: rest2).drop 2).dropLast)) with
        | none => none
        | some (high, toksB) =>
          match parse_sig toksB with
          | none => none
          | some (low, _) =>
            let other := (t1 :: rest2).getLastD []
            let keep : Bool :=
              match filt with
              | none => true
              | some f => decide (f = []) || decide (other ∈ f)
            match gen_pins rest filt with
            | none => none
            | some pins =>
              some (if keep then ⟨t0, t1, high, low, other⟩ :: pins else pins)
      | _ => none   -- a single-token line: reading toks[1] raises IndexError

/-- Well-formed expression values as consumed by the network phase: exactly
the bop_t trees whose comparison leaves hold a descriptor and a literal and
whose combination nodes hold sub-expressions.  (On any other value the
network phase raises an AttributeError somewhere; valToExpr below maps
those to `none`.)  The literal slot of a comparison is never read again by
the program. -/
inductive Expr where
  | cmp (op : BopOp) (a : pd_t) (lit : Str)
  | comb (op : BopOp) (a b : Expr)
deriving DecidableEq

/-- Embed a parser value into the well-formed expression type: `none` for
every value on which the network phase would raise (bare descriptors or
literals in child position, None children, comparison operators over
non-atoms). -/
def valToExpr : Val → Option Expr
  | .bopV op (.pdV p) (.litV l) => if op.isCmp then some (.cmp op p l) else none
  | .bopV op a b =>
    if op.isCmp then none
    else
      match valToExpr a, valToExpr b with
      | some ea, some eb => some (.comb op ea eb)
      | _, _ => none
  | _ => none

/-- sig_t of the network phase. -/
structure sig_t where
  sig : Str
  expr : Option Expr
deriving DecidableEq

/-- pin_t of the network phase. -/
structure pin_t where
  pin : Str
  default : Str
  high : Option sig_t
  low : Option sig_t
  other : Str
deriving DecidableEq

/-- Errors of the network phase: the sys.exit(1) diagnostic of get_bit_sigs
(carrying the printed pin), an AttributeError on a None attribute access, a
KeyError on a missing bit-index entry, an AssertionError, and the fuel bound
of the modelled while loop (proved unreachable for the fuel find_networks
passes). -/
inductive NetErr where
  | exitDiag (p : pin_t)
  | attrError
  | keyError
  | assertError
  | fuelOut
deriving DecidableEq

def sigVToSig (s : sigV) : Option sig_t :=
  match s.expr with
  | .noneV => some ⟨s.sig, none⟩
  | v => (valToExpr v).map (fun e => ⟨s.sig, some e⟩)

def pinVToPin (p : pinV) : Option pin_t :=
  match (match p.high with
         | none => some none
         | some s => (sigVToSig s).map some : Option (Option sig_t)) with
  | none => none
  | some high =>
    match (match p.low with
           | none => some none
           | some s => (sigVToSig s).map some : Option (Option sig_t)) with
    | none => none
    | some low => some ⟨p.pin, p.default, high, low, p.other⟩

/-- The parse phase followed by the embedding into the network phase's
types; `none` when gen_pins raises or when a parsed expression is one the
network phase cannot process without an AttributeError. -/
def pinsOfLines (src : List Str) (filt : Option (List Str)) : Option (List pin_t) :=
  (gen_pins src filt).bind (fun ps => ps.mapM pinVToPin)

/-- Lines 110-111, is_simple. -/
def exprIsSimple : Expr → Bool
  | .cmp .. => true
  | .comb .. => false

/-- Lines 113-114, is_compound. -/
def exprIsCompound (e : Expr) : Bool := !(exprIsSimple e)

/-- Lines 116-125, get_simple_pds: every comparison-leaf descriptor. -/
def get_simple_pds : Expr → List pd_t
  | .cmp _ a _ => [a]
  | .comb _ a b => get_simple_pds a ++ get_simple_pds b

/-- Lines 127-132, get_compound_pds: the leaf descriptors of a compound
expression, none for a simple one. -/
def get_compound_pds (e : Expr) : List pd_t :=
  if exprIsSimple e then [] else get_simple_pds e

/-- Lines 152-161, get_pds: leaf descriptors, [] for None. -/
def get_pds (e : Option Expr) : List pd_t :=
  match e with
  | none => []
  | some (.cmp _ a _) => [a]
  | some (.comb _ a b) => get_pds (some a) ++ get_pds (some b)

/-- Lines 182-187, expr_uses_bits: some leaf descriptor names the same
register as `bit` and overlaps its bit set. -/
def expr_uses_bits (e : Expr) (bit : pd_t) : Bool :=
  match e with
  | .cmp _ a _ => decide (a.mask ∩ bit.mask ≠ ∅) && decide (a.reg = bit.reg)
  | .comb _ a b => expr_uses_bits a bit || expr_uses_bits b bit

/-- Lines 189-190, sig_uses_bits; the AttributeError of is_simple(None) when
the signal has no expression is reported here. -/
def sig_uses_bits (s : sig_t) (bit : pd_t) : Except NetErr Bool :=
  match s.expr with
  | none => .error .attrError
  | some e => .ok (expr_uses_bits e bit)

/-- Lines 192-203, get_bit_sigs: every pin's high (and present low) signal
that uses a bit of `bit`, in pin order.  A pin whose high signal has no
expression is printed and the run exits(1); a missing high signal or a
low signal without an expression raises an AttributeError. -/
def get_bit_sigs (pins : List pin_t) (bit : pd_t) : Except NetErr (List sig_t) :=
  match pins with
  | [] => .ok []
  | pin :: rest =>
    match pin.high with
    | none => .error .attrError
    | some hi =>
      match hi.expr with
      | none => .error (.exitDiag pin)
      | some he =>
        let fromHigh : List sig_t := if expr_uses_bits he bit then [hi] else []
        match pin.low with
        | none => (get_bit_sigs rest bit).map (fun l => fromHigh ++ l)
        | some lo =>
          match lo.expr with
          | none => .error .attrError
          | some le =>
            let fromLow : List sig_t := if expr_uses_bits le bit then [lo] else []
            (get_bit_sigs rest bit).map (fun l => fromHigh ++ fromLow ++ l)

/-- Lines 205-208, get_sig_pin: the first pin owning the signal. -/
def get_sig_pin (pins : List pin_t) (s : sig_t) : Option pin_t :=
  pins.find? (fun pin => pin.high = some s || pin.low = some s)

/-- Lines 210-211, explode_pd: one single-bit descriptor per mask bit.
Python iterates the frozenset in an unspecified order; ascending order
(enumerated up to the largest member) is used here, and nothing downstream
that the claims mention depends on it. -/
def explode_pd (pd : pd_t) : List pd_t :=
  ((List.range (pd.mask.sup id + 1)).filter (· ∈ pd.mask)).map
    (fun b => (⟨pd.reg, {b}⟩ : pd_t))

/-- One `all_pds[pds].append((pin.other, sig.sig))` step of get_all_pds
(lines 171-175): insertion-ordered dict with per-key deduplicated value
lists. -/
def allPdsAdd (m : List (pd_t × List (Str × Str))) (pd : pd_t) (t : Str × Str) :
    List (pd_t × List (Str × Str)) :=
  match m with
  | [] => [(pd, [t])]
  | (k, v) :: rest =>
    if k = pd then (k, if t ∈ v then v else v ++ [t]) :: rest
    else (k, v) :: allPdsAdd rest pd t

def addSigPds (m : List (pd_t × List (Str × Str))) (other : Str) (s : sig_t) :
    List (pd_t × List (Str × Str)) :=
  (get_pds s.expr).foldl (fun acc pd => allPdsAdd acc pd (other, s.sig)) m

def get_all_pds_from (m : List (pd_t × List (Str × Str))) (pins : List pin_t) :
    Except NetErr (List (pd_t × List (Str × Str))) :=
  match pins with
  | [] => .ok m
  | pin :: rest =>
    match pin.high with
    | none => .error .attrError
    | some hi =>
      let m1 := addSigPds m pin.other hi
      match pin.low with
      | none => get_all_pds_from m1 rest
      | some lo => get_all_pds_from (addSigPds m1 pin.other lo) rest

/-- Lines 163-176, get_all_pds: the insertion-ordered mapping from every
leaf descriptor of any signal's expression to the (group label, signal
name) pairs referencing it.  find_networks only consumes its key list. -/
def get_all_pds (pins : List pin_t) : Except NetErr (List (pd_t × List (Str × Str))) :=
  get_all_pds_from [] pins

/-- One `lookup[bit] = sigs` step of gen_bit_sigs_lookup (line 218):
overwrite semantics. -/
def bsigsUpsert (m : List (pd_t × List sig_t)) (k : pd_t) (v : List sig_t) :
    List (pd_t × List sig_t) :=
  match m with
  | [] => [(k, v)]
  | (k0, v0) :: rest =>
    if k0 = k then (k0, v) :: rest else (k0, v0) :: bsigsUpsert rest k v

def lookupBS (m : List (pd_t × List sig_t)) (k : pd_t) : Option (List sig_t) :=
  match m with
  | [] => none
  | (k0, v0) :: rest => if k0 = k then some v0 else lookupBS rest k

def gen_bit_sigs_lookup_from (pins : List pin_t) (m : List (pd_t × List sig_t)) :
    List pd_t → Except NetErr (List (pd_t × List sig_t))
  | [] => .ok m
  | pd :: rest =>
    match get_bit_sigs pins pd with
    | .error e => .error e
    | .ok sigs =>
      gen_bit_sigs_lookup_from pins
        ((explode_pd pd).foldl (fun acc bit => bsigsUpsert acc bit sigs) m) rest

/-- Lines 213-219, gen_bit_sigs_lookup: for each descriptor key, every
individual bit of it maps to get_bit_sigs of the whole descriptor (all
bits of one descriptor share one list; a bit lying in several descriptors
keeps the last-written list).  The Python body reads the pin list from the
module-level variable `pins`; it is an explicit parameter here. -/
def gen_bit_sigs_lookup (pins : List pin_t) (pds : List pd_t) :
    Except NetErr (List (pd_t × List sig_t)) :=
  gen_bit_sigs_lookup_from pins [] pds

/-- The candidate enumeration of the flood fill (lines 233-239, before the
membership filter): for every simple-leaf descriptor of the popped signal's
expression, for every individual bit of it, the signals the bit index maps
to.  Errors: a popped signal without an expression (get_simple_pds would
raise), a bit missing from the index (KeyError). -/
def seedStep (bsigs : List (pd_t × List sig_t)) (acc : List sig_t)
    (bit : pd_t) : Except NetErr (List sig_t) :=
  match lookupBS bsigs bit with
  | none => .error .keyError
  | some l => .ok (acc ++ l)

def floodCands (bsigs : List (pd_t × List sig_t)) (s : sig_t) :
    Except NetErr (List sig_t) :=
  match s.expr with
  | none => .error .attrError
  | some e =>
    (get_simple_pds e).foldlM (fun acc pd =>
      (explode_pd pd).foldlM (seedStep bsigs) acc) []

/-- Lines 230-240, the while loop of find_networks: pop the last queued
signal, append it to rels, and enqueue every candidate not already queued
or collected.  The loop always terminates (proved below for the fuel
find_networks passes); `fuelOut` marks an exhausted fuel argument. -/
def flood (bsigs : List (pd_t × List sig_t)) :
    Nat → List sig_t → List sig_t → Except NetErr (List sig_t)
  | _, [], rels => .ok rels
  | 0, _ :: _, _ => .error .fuelOut
  | fuel + 1, x :: xs, rels =>
    let sig := (x :: xs).getLast (by simp)
    let q1 := (x :: xs).dropLast
    let rels1 := rels ++ [sig]
    match floodCands bsigs sig with
    | .error e => .error e
    | .ok cands =>
      let nsigs := cands.filter (fun n => decide (¬ (n ∈ q1 ∨ n ∈ rels1)))
      flood bsigs fuel (q1 ++ nsigs) rels1

/-- Every signal stored anywhere in the bit index (the universe the flood
fill can ever visit: initial queues are built from index lookups and so are
all candidates). -/
def bsigsAll (bsigs : List (pd_t × List sig_t)) : List sig_t :=
  (bsigs.map Prod.snd).join

def maxBsigsLen (bsigs : List (pd_t × List sig_t)) : Nat :=
  (bsigs.map (fun e => e.2.length)).foldr max 0

/-- Upper bound on the length of floodCands for one signal. -/
def candBound (bsigs : List (pd_t × List sig_t)) (s : sig_t) : Nat :=
  match s.expr with
  | none => 0
  | some e =>
    (get_simple_pds e).foldr (fun pd acc => pd.mask.card * maxBsigsLen bsigs + acc) 0

def totalCandBound (bsigs : List (pd_t × List sig_t)) : Nat :=
  ((bsigsAll bsigs).map (candBound bsigs)).foldr (· + ·) 0

/-- Sufficient fuel for the flood loop (the loop of the source is unbounded;
this bound is proved to make `fuelOut` unreachable). -/
def floodFuel (bsigs : List (pd_t × List sig_t)) (q : List sig_t) : Nat :=
  ((bsigsAll bsigs).length + 1) * (totalCandBound bsigs + 2) + q.length + 1

/-- One iteration of the `for pd in all_pds` loop of find_networks (lines
228-240): build the seed queue from the bit-index entries of every bit of
the descriptor, then run the flood fill from it. -/
def seedFloodKey (bsigs : List (pd_t × List sig_t)) (pd : pd_t) :
    Except NetErr (List sig_t) :=
  match (explode_pd pd).foldlM (seedStep bsigs) [] with
  | .error e => .error e
  | .ok q => flood bsigs (floodFuel bsigs q) q []

/-- Lines 221-242, find_networks: index all descriptors, build the bit
index, seed one flood fill per descriptor key with every signal the index
associates to any of its bits, and deduplicate the resulting signal lists.
The list version keeps one representative per distinct network, in first
discovery order (the frozenset of frozensets of line 242 fixes no order). -/
def find_networks_list (pins : List pin_t) : Except NetErr (List (Finset sig_t)) :=
  match get_all_pds pins with
  | .error e => .error e
  | .ok pdsMap =>
    let pds := pdsMap.map Prod.fst
    match gen_bit_sigs_lookup pins pds with
    | .error e => .error e
    | .ok bsigs =>
      match pds.mapM (seedFloodKey bsigs) with
      | .error e => .error e
      | .ok nets => .ok (nets.map List.toFinset).dedup

/-- Line 242: the result of find_networks as the set of networks. -/
def find_networks (pins : List pin_t) : Except NetErr (Finset (Finset sig_t)) :=
  match find_networks_list pins with
  | .error e => .error e
  | .ok l => .ok l.toFinset

def dedupAppend (l : List pd_t) (pd : pd_t) : List pd_t :=
  if pd ∈ l then l else l ++ [pd]

def get_all_compound_pds_from (acc : List pd_t) (pins : List pin_t) :
    Except NetErr (List pd_t) :=
  match pins with
  | [] => .ok acc
  | pin :: rest =>
    match pin.high with
    | none => .error .attrError
    | some hi =>
      match hi.expr with
      | none => .error .assertError
      | some he =>
        let acc1 := (get_compound_pds he).foldl dedupAppend acc
        match pin.low with
        | none => get_all_compound_pds_from acc1 rest
        | some lo =>
          match lo.expr with
          | none => .error .assertError
          | some le =>
            get_all_compound_pds_from ((get_compound_pds le).foldl dedupAppend acc1) rest

/-- Lines 134-150, get_all_compound_pds: the deduplicated leaf descriptors
of compound expressions only.  Dead code on the main path: find_networks
seeds from get_all_pds instead. -/
def get_all_compound_pds (pins : List pin_t) : Except NetErr (List pd_t) :=
  get_all_compound_pds_from [] pins

instance instDecEqExcept {e a : Type} [DecidableEq e] [DecidableEq a] :
    DecidableEq (Except e a) := fun x y =>
  match x, y with
  | .error e1, .error e2 =>
    decidable_of_iff (e1 = e2) (by constructor
                                   · rintro rfl; rfl
                                   · intro h; injection h)
  | .ok v1, .ok v2 =>
    decidable_of_iff (v1 = v2) (by constructor
                                   · rintro rfl; rfl
                                   · intro h; injection h)
  | .error _, .ok _ => .isFalse (by intro h; injection h)
  | .ok _, .error _ => .isFalse (by intro h; injection h)

/-- The keys of the dict `blah` of print_networks (lines 249-254): the
owning pin of each member signal, via get_sig_pin (None if a signal has no
owner -- print_networks then crashes sorting by x[0].other). -/
def netPins (pins : List pin_t) (rels : Finset sig_t) : Finset (Option pin_t) :=
  rels.image (get_sig_pin pins)

/-- The per-pin union frozenset(pds) of lines 256-260: all descriptors
referenced by the signals grouped under one blah key. -/
def pinGroupPds (pins : List pin_t) (rels : Finset sig_t) (p : Option pin_t) :
    Finset pd_t :=
  (rels.filter (fun s => get_sig_pin pins s = p)).biUnion
    (fun s => (get_pds s.expr).toFinset)

/-- The Counter value c[b] of print_networks: how many owning pins
reference descriptor b (each pin votes once, lines 255-260). -/
def cCount (pins : List pin_t) (rels : Finset sig_t) (b : pd_t) : Nat :=
  ((netPins pins rels).filter (fun p => b ∈ pinGroupPds pins rels p)).card

/-- Every descriptor referenced by a member signal (the generator
`bit for sig in rels for bit in get_pds(sig.expr)` of lines 261-262). -/
def memberPds (rels : Finset sig_t) : Finset pd_t :=
  rels.biUnion (fun s => (get_pds s.expr).toFinset)

/-- sum(c.values()) of line 263: each `c.update(frozenset(pds))` adds the
size of that pin's descriptor set. -/
def sumC (pins : List pin_t) (rels : Finset sig_t) : Nat :=
  ∑ p ∈ netPins pins rels, (pinGroupPds pins rels p).card

/-- len(c) of line 263: the number of distinct counted descriptors. -/
def lenC (pins : List pin_t) (rels : Finset sig_t) : Nat :=
  ((netPins pins rels).biUnion (pinGroupPds pins rels)).card

/-- The frozenset `relbits` of lines 261-263: the common descriptors of a
network -- those counted more than once, or all of them when the total
count equals the number of counted descriptors. -/
def relbits (pins : List pin_t) (rels : Finset sig_t) : Finset pd_t :=
  (memberPds rels).filter (fun b =>
    1 < cCount pins rels b ∨ sumC pins rels = lenC pins rels)

/-- The printed distinguishing set of one pin, line 273:
set(pds).difference(relbits). -/
def selbits (pins : List pin_t) (rels : Finset sig_t) (p : Option pin_t) :
    Finset pd_t :=
  pinGroupPds pins rels p \ relbits pins rels

/-- The data printed for one network: the common descriptors with their
counts (line 267) and, per owning pin, its group label, the names of its
member signals and its distinguishing descriptors (lines 269-275).  Print
order is omitted: Python sorts frozensets and pins with a partial order,
and no claim depends on it. -/
structure NetReport where
  common : Finset (pd_t × Nat)
  members : Finset (Str × Finset Str × Finset pd_t)
deriving DecidableEq

def netReport (pins : List pin_t) (rels : Finset sig_t) : Except NetErr NetReport :=
  if ∀ p ∈ netPins pins rels, p.isSome then
    .ok ⟨(relbits pins rels).image (fun b => (b, cCount pins rels b)),
         (netPins pins rels).image (fun p =>
           ((p.map pin_t.other).getD [],
            ((rels.filter (fun s => get_sig_pin pins s = p)).image sig_t.sig),
            selbits pins rels p))⟩
  else .error .attrError

def print_networks_go (pins : List pin_t) (allbits : Finset pd_t) :
    List (Finset sig_t) → Except NetErr (List NetReport)
  | [] => .ok []
  | rels :: rest =>
    if rels.card < 2 then print_networks_go pins allbits rest
    else
      match netReport pins rels with
      | .error e => .error e
      | .ok rep =>
        if Disjoint allbits (relbits pins rels) then
          match print_networks_go pins (allbits ∪ relbits pins rels) rest with
          | .error e => .error e
          | .ok more => .ok (rep :: more)
        else .error .assertError

/-- Lines 244-278, print_networks: one report per network of size at least
two, with the running assertion (line 276) that the common descriptors of
the networks printed so far stay pairwise disjoint.  The iteration order
over the set of networks neither affects which reports exist nor whether
the assertion ever fails. -/
def print_networks (pins : List pin_t) (nets : List (Finset sig_t)) :
    Except NetErr (List NetReport) :=
  print_networks_go pins ∅ nets

/-- The whole network phase of the program (lines 294-295). -/
def runNetworks (pins : List pin_t) : Except NetErr (List NetReport) :=
  match find_networks_list pins with
  | .error e => .error e
  | .ok nets => print_networks pins nets

/-- All signals of a pin corpus: every pin's high signal and, when present,
its low signal. -/
def corpusSigs (pins : List pin_t) : List sig_t :=
  pins.bind (fun p => p.high.toList ++ p.low.toList)

/-- The leaf descriptors of a signal's expression. -/
def leavesOf (s : sig_t) : List pd_t := get_pds s.expr

/-- The signal references the individual configuration bit (reg, b). -/
def usesBit (s : sig_t) (reg : Str) (b : Nat) : Prop :=
  ∃ pd ∈ leavesOf s, pd.reg = reg ∧ b ∈ pd.mask

instance (s : sig_t) (reg : Str) (b : Nat) : Decidable (usesBit s reg b) := by
  unfold usesBit; infer_instance

/-- Two signals are directly related when they reference a common
individual bit. -/
def SigRel (s t : sig_t) : Prop :=
  ∃ pd ∈ leavesOf s, ∃ b ∈ pd.mask, usesBit t pd.reg b

instance (s t : sig_t) : Decidable (SigRel s t) := by
  unfold SigRel; infer_instance

/-- One step of bit-sharing connectivity inside the corpus. -/
def SigStep (pins : List pin_t) (x y : sig_t) : Prop :=
  SigRel x y ∧ y ∈ corpusSigs pins

/-- Transitive bit-sharing connectivity inside the corpus. -/
def Reach (pins : List pin_t) (x y : sig_t) : Prop :=
  Relation.ReflTransGen (SigStep pins) x y

/-- A part of a descriptor bit-spec as written in source text: a single
index or an inclusive hi:lo range. -/
inductive MaskPart where
  | single (n : Nat)
  | range (hi lo : Nat)
deriving DecidableEq

/-- Standard decimal rendering of a natural number. -/
def renderNat (n : Nat) : Str :=
  if n = 0 then ['0']
  else (Nat.digits 10 n).reverse.map (fun d => Char.ofNat (48 + d))

def MaskPart.render : MaskPart → Str
  | .single n => renderNat n
  | .range hi lo => renderNat hi ++ ':' :: renderNat lo

/-- The set of bit positions a mask part denotes. -/
def MaskPart.denote : MaskPart → Finset Nat
  | .single n => {n}
  | .range hi lo => Finset.Icc lo hi

/-- Join strings with a one-character separator. -/
def joinWith (c : Char) : List Str → Str
  | [] => []
  | [p] => p
  | p :: ps => p ++ c :: joinWith c ps

/-- The source text of a comma-separated bit-spec. -/
def renderMaskSpec (parts : List MaskPart) : Str :=
  joinWith ',' (parts.map MaskPart.render)

/-- Union of the bit sets of all parts. -/
def unionParts (parts : List MaskPart) : Finset Nat :=
  (parts.map MaskPart.denote).foldr (fun a b => a ∪ b) ∅

/-- The structural invariant claimed for parser output: every leaf sits
inside a Simple comparison (descriptor, =/!= operator, literal) and no
node has a missing (None) child. -/
def goodTree : Val → Bool
  | .noneV => false
  | .pdV _ => false
  | .litV _ => false
  | .bopV op a b =>
    if op.isCmp then
      match a, b with
      | .pdV _, .litV _ => true
      | _, _ => false
    else goodTree a && goodTree b

/-- The token t is one packed comparison: parse_pd consumes a descriptor
from it leaving the single residue rem, and the one-token lookahead parse
of rem against that descriptor yields the simple comparison v (operator
=/!=, descriptor, literal). -/
def IsCmpTok (t : Str) (v : Val) : Prop :=
  ∃ p rem op lit,
    parse_pd [t] = some (some p, [rem]) ∧
    parse_expr [rem] (.pdV p) = some (v, none) ∧
    v = .bopV op (.pdV p) (.litV lit) ∧ op.isCmp = true

/-- Grammatical expression tails: alternating combination-operator tokens
(`&`/`|` found as the first operator of their token) and packed comparison
tokens, accumulating left-associatively onto a. -/
inductive ChainTail : Val → List Str → Val → Prop where
  | nil (a : Val) : ChainTail a [] a
  | step (a : Val) (o t : Str) (rest : List Str) (s w : Val) (op : BopOp) :
      bopScan o = some op → op.isCmp = false →
      IsCmpTok t s →
      ChainTail (.bopV op a s) rest w →
      ChainTail a (o :: t :: rest) w

/-- The first pin whose high signal carries no expression (the record
get_bit_sigs prints before exiting). -/
def firstNullHigh (pins : List pin_t) : Option pin_t :=
  pins.find? (fun p => match p.high with
                       | some s => s.expr.isNone
                       | none => false)

/-- The well-formedness assumptions of the network-phase claims: every pin
has a high signal with an expression, every present low signal has an
expression, and every referenced descriptor denotes at least one bit. -/
def WFCorpus (pins : List pin_t) : Prop :=
  (∀ pin ∈ pins, ∃ hs, pin.high = some hs ∧ hs.expr ≠ none) ∧
  (∀ pin ∈ pins, ∀ ls, pin.low = some ls → ls.expr ≠ none) ∧
  (∀ s ∈ corpusSigs pins, ∀ pd ∈ leavesOf s, pd.mask ≠ ∅)

instance (pins : List pin_t) : Decidable (WFCorpus pins) := by
  unfold WFCorpus
  have h1 : ∀ pin : pin_t, Decidable (∃ hs, pin.high = some hs ∧ hs.expr ≠ none) := by
    intro pin
    rcases pin.high with _ | hs
    · exact .isFalse (by rintro ⟨hs, h, -⟩; exact Option.noConfusion h)
    · rcases hex : hs.expr with _ | e
      · exact .isFalse (by rintro ⟨hs2, h2, hne⟩
                           injection h2 with h2
                           exact hne (h2 ▸ hex))
      · exact .isTrue ⟨hs, rfl, by rw [hex]; simp⟩
  infer_instance

/-- The membership predicate get_bit_sigs selects. -/
def sigUsesP (y : sig_t) (bit : pd_t) : Prop :=
  ∃ e, y.expr = some e ∧ expr_uses_bits e bit = true

/-- Fixture: a signal whose only referenced descriptor has an empty bit
set (as produced by a reversed range such as `SCUA[1:3]`). -/
def sigS : sig_t := ⟨"S".data, some (.cmp .eq ⟨"R".data, ∅⟩ "1".data)⟩

/-- Fixture: a one-pin corpus whose single signal references only an
empty-mask descriptor. -/
def pins0 : List pin_t := [⟨"p".data, "d".data, some sigS, none, "g".data⟩]

/-- Fixture: a signal with one simple single-bit comparison (no compound
expression anywhere). -/
def sigT : sig_t := ⟨"t".data, some (.cmp .eq ⟨"R".data, {0}⟩ "1".data)⟩

def pins1 : List pin_t := [⟨"p".data, "d".data, some sigT, none, "g".data⟩]

/-- Fixtures: two overlapping two-bit descriptors, each referenced by
exactly one of two pins. -/
def pdA : pd_t := ⟨"R".data, {0, 1}⟩

def pdB : pd_t := ⟨"R".data, {1, 2}⟩

def sigH1 : sig_t := ⟨"a".data, some (.cmp .eq pdA "1".data)⟩

def sigH2 : sig_t := ⟨"b".data, some (.cmp .eq pdB "1".data)⟩

def pins2 : List pin_t :=
  [⟨"x".data, "d".data, some sigH1, none, "g".data⟩,
   ⟨"y".data, "d".data, some sigH2, none, "h".data⟩]

def netH : Finset sig_t := {sigH1, sigH2}

/-- Fixtures: an empty-mask descriptor pdE shared by two otherwise
unrelated pairs of pins. -/
def pdE : pd_t := ⟨"E".data, ∅⟩

def pd80 : pd_t := ⟨"Q".data, {0}⟩

def pd90 : pd_t := ⟨"W".data, {5}⟩

def sigK1 : sig_t :=
  ⟨"a".data, some (.comb .band (.cmp .eq pd80 "1".data) (.cmp .eq pdE "1".data))⟩

def sigK2 : sig_t :=
  ⟨"b".data, some (.comb .band (.cmp .eq pd80 "0".data) (.cmp .eq pdE "1".data))⟩

def sigK3 : sig_t :=
  ⟨"c".data, some (.comb .band (.cmp .eq pd90 "1".data) (.cmp .eq pdE "1".data))⟩

def sigK4 : sig_t :=
  ⟨"e".data, some (.comb .band (.cmp .eq pd90 "0".data) (.cmp .eq pdE "1".data))⟩

def pins6 : List pin_t :=
  [⟨"1".data, "d".data, some sigK1, none, "g".data⟩,
   ⟨"2".data, "d".data, some sigK2, none, "g".data⟩,
   ⟨"3".data, "d".data, some sigK3, none, "g".data⟩,
   ⟨"4".data, "d".data, some sigK4, none, "g".data⟩]

/-- Fixture: the pin record parsed from the line `PIN DEF FOO GROUP` --
its high clause is the single token FOO, so its expression is null. -/
def pinBad : pin_t :=
  ⟨"PIN".data, "DEF".data, some ⟨"FOO".data, none⟩, none, "GROUP".data⟩

def pinGood : pin_t := ⟨"2".data, "d".data, some sigT, none, "g".data⟩

unseal replaceAll get_mask_bits parse_expr parseTail get_pds

theorem hasChar_iff (c : Char) (s : Str) : hasChar c s = true ↔ c ∈ s := by
  unfold hasChar
  rw [List.any_eq_true]
  constructor
  · rintro ⟨x, hx, he⟩
    have hxc : x = c := by simpa using he
    exact hxc ▸ hx
  · intro h
    exact ⟨c, h, by simp⟩

theorem renderNat_all_digit (n : Nat) : ∀ c ∈ renderNat n, c.isDigit = true := by
  intro c hc
  unfold renderNat at hc
  by_cases h : n = 0
  · simp [h] at hc
    subst hc
    decide
  · simp only [if_neg h, List.mem_map, List.mem_reverse] at hc
    obtain ⟨d, hd, hcd⟩ := hc
    have hdlt : d < 10 := Nat.digits_lt_base (by norm_num) hd
    subst hcd
    interval_cases d <;> decide

theorem digit_ne_comma {c : Char} (h : c.isDigit = true) : c ≠ ',' := by
  intro hc; subst hc; exact absurd h (by decide)

theorem digit_ne_colon {c : Char} (h : c.isDigit = true) : c ≠ ':' := by
  intro hc; subst hc; exact absurd h (by decide)

set_option maxRecDepth 8192 in
theorem pyInt_foldl (ds : List Nat) (hlt : ∀ d ∈ ds, d < 10) (a : Nat) :
    ((ds.reverse.map (fun d => Char.ofNat (48 + d))).foldl
        (fun acc c => acc * 10 + digitVal c) a)
      = a * 10 ^ ds.length + Nat.ofDigits 10 ds := by
  induction ds generalizing a with
  | nil => simp [Nat.ofDigits]
  | cons d tl ih =>
    simp only [List.reverse_cons, List.map_append, List.foldl_append, List.map_cons,
      List.map_nil, List.foldl_cons, List.foldl_nil]
    rw [ih (fun x hx => hlt x (List.mem_cons_of_mem d hx))]
    have hd : d < 10 := hlt d (List.mem_cons_self d tl)
    have hdv : digitVal (Char.ofNat (48 + d)) = d := by
      interval_cases d <;> decide
    rw [hdv, Nat.ofDigits_cons]
    simp only [List.length_cons, pow_succ]
    ring

theorem pyInt_renderNat (n : Nat) : pyInt (renderNat n) = some n := by
  by_cases h : n = 0
  · subst h; decide
  · unfold pyInt
    have hne : renderNat n ≠ [] := by
      unfold renderNat
      simp only [if_neg h]
      intro hcon
      have hdig := (@Nat.digits_ne_nil_iff_ne_zero 10 n).mpr h
      simp at hcon
      exact hdig hcon
    have hall : (renderNat n).all Char.isDigit = true := by
      rw [List.all_eq_true]
      exact renderNat_all_digit n
    rw [if_pos ⟨hne, hall⟩]
    unfold renderNat
    simp only [if_neg h]
    rw [pyInt_foldl (Nat.digits 10 n) (fun d hd => Nat.digits_lt_base (by norm_num) hd) 0]
    simp [Nat.ofDigits_digits]

theorem splitOnChar_sepfree (c : Char) (p : Str) (h : ∀ x ∈ p, x ≠ c) :
    splitOnChar c p = [p] := by
  induction p with
  | nil => rfl
  | cons x xs ih =>
    have hx : x ≠ c := h x (List.mem_cons_self x xs)
    have hxs := ih (fun y hy => h y (List.mem_cons_of_mem x hy))
    simp only [splitOnChar, hxs, if_neg hx]

theorem splitOnChar_append (c : Char) (p l : Str) (h : ∀ x ∈ p, x ≠ c)
    (y : Str) (ys : List Str) (hl : splitOnChar c l = y :: ys) :
    splitOnChar c (p ++ l) = (p ++ y) :: ys := by
  induction p with
  | nil => simpa using hl
  | cons x xs ih =>
    have hx : x ≠ c := h x (List.mem_cons_self x xs)
    have hxs := ih (fun z hz => h z (List.mem_cons_of_mem x hz))
    simp only [List.cons_append, splitOnChar, List.append_eq, hxs, if_neg hx]

theorem split_joinWith (c : Char) (parts : List Str) (hne : parts ≠ [])
    (hfree : ∀ p ∈ parts, ∀ x ∈ p, x ≠ c) :
    splitOnChar c (joinWith c parts) = parts := by
  induction parts with
  | nil => exact absurd rfl hne
  | cons p ps ih =>
    rcases ps with _ | ⟨p2, ps2⟩
    · exact splitOnChar_sepfree c p (hfree p (List.mem_cons_self p _))
    · have hrest := ih (by simp) (fun q hq => hfree q (List.mem_cons_of_mem p hq))
      have hjoin : joinWith c (p :: p2 :: ps2) = p ++ c :: joinWith c (p2 :: ps2) := rfl
      rw [hjoin]
      have hsep : splitOnChar c (c :: joinWith c (p2 :: ps2))
          = [] :: splitOnChar c (joinWith c (p2 :: ps2)) := by
        rcases hsp : splitOnChar c (joinWith c (p2 :: ps2)) with _ | ⟨y, ys⟩
        · exact absurd hsp (splitOnChar_ne_nil c _)
        · simp [splitOnChar, hsp]
      rw [hrest] at hsep
      have := splitOnChar_append c p (c :: joinWith c (p2 :: ps2))
        (hfree p (List.mem_cons_self p _)) [] (p2 :: ps2) hsep
      simpa using this

theorem mapM_subtype {α β : Type} (P : α → Prop) (f : α → Option β) :
    ∀ (l : List {x // P x}), (l.mapM (fun p => f p.val)) = (l.map Subtype.val).mapM f := by
  intro l
  induction l with
  | nil => rfl
  | cons a tl ih => rw [List.map_cons, List.mapM_cons, List.mapM_cons, ih]

theorem mapM_attach {α β : Type} (l : List α) (f : α → Option β) :
    (l.attach.mapM (fun p => f p.val)) = l.mapM f := by
  rw [mapM_subtype (fun x => x ∈ l) f l.attach]
  congr 1
  exact List.attach_map_subtype_val l

theorem hasChar_eq_false (c : Char) (s : Str) (h : ∀ x ∈ s, x ≠ c) :
    hasChar c s = false := by
  rw [← Bool.not_eq_true, hasChar_iff]
  intro hc
  exact h c hc rfl

theorem renderPart_chars (p : MaskPart) :
    ∀ x ∈ p.render, x.isDigit = true ∨ x = ':' := by
  cases p with
  | single n =>
    intro x hx
    exact Or.inl (renderNat_all_digit n x hx)
  | range hi lo =>
    intro x hx
    simp only [MaskPart.render, List.mem_append, List.mem_cons] at hx
    rcases hx with hx | hx | hx
    · exact Or.inl (renderNat_all_digit hi x hx)
    · exact Or.inr hx
    · exact Or.inl (renderNat_all_digit lo x hx)

theorem renderPart_comma_free (p : MaskPart) : ∀ x ∈ p.render, x ≠ ',' := by
  intro x hx
  rcases renderPart_chars p x hx with h | h
  · exact digit_ne_comma h
  · subst h; decide

theorem get_mask_bits_part (p : MaskPart) :
    get_mask_bits p.render = some p.denote := by
  cases p with
  | single n =>
    simp only [MaskPart.render, MaskPart.denote]
    rw [get_mask_bits.eq_def]
    have hc : ¬ hasChar ',' (renderNat n) = true := by
      rw [hasChar_eq_false ',' (renderNat n)
        (fun x hx => digit_ne_comma (renderNat_all_digit n x hx))]
      simp
    rw [dif_neg hc]
    have hc2 : hasChar ':' (renderNat n) = false :=
      hasChar_eq_false ':' (renderNat n)
        (fun x hx => digit_ne_colon (renderNat_all_digit n x hx))
    rw [hc2]
    simp only [Bool.false_eq_true, if_false]
    rw [pyInt_renderNat]
    rfl
  | range hi lo =>
    rw [get_mask_bits.eq_def]
    have hc : ¬ hasChar ',' (MaskPart.render (.range hi lo)) = true := by
      rw [hasChar_eq_false ',' _ (renderPart_comma_free (.range hi lo))]
      simp
    rw [dif_neg hc]
    have hc2 : hasChar ':' (MaskPart.render (.range hi lo)) = true := by
      rw [hasChar_iff]
      simp [MaskPart.render]
    rw [hc2]
    simp only [if_true]
    have hsp2 : splitOnChar ':' (':' :: renderNat lo) = [] :: splitOnChar ':' (renderNat lo) := by
      rcases hsp : splitOnChar ':' (renderNat lo) with _ | ⟨y, ys⟩
      · exact absurd hsp (splitOnChar_ne_nil ':' _)
      · simp [splitOnChar, hsp]
    rw [splitOnChar_sepfree ':' (renderNat lo)
      (fun x hx => digit_ne_colon (renderNat_all_digit lo x hx))] at hsp2
    have hsplit : splitOnChar ':' (MaskPart.render (.range hi lo))
        = [renderNat hi, renderNat lo] := by
      have := splitOnChar_append ':' (renderNat hi) (':' :: renderNat lo)
        (fun x hx => digit_ne_colon (renderNat_all_digit hi x hx))
        [] [renderNat lo] hsp2
      simpa [MaskPart.render] using this
    rw [hsplit]
    have hm : List.mapM pyInt [renderNat hi, renderNat lo] = some [hi, lo] := by
      rw [List.mapM_cons, List.mapM_cons, List.mapM_nil, pyInt_renderNat, pyInt_renderNat]
      rfl
    rw [hm]
    rfl

theorem mapM_renders (L : List MaskPart) :
    (L.map MaskPart.render).mapM get_mask_bits = some (L.map MaskPart.denote) := by
  induction L with
  | nil => rfl
  | cons p tl ih =>
    rw [List.map_cons, List.mapM_cons, get_mask_bits_part, ih, List.map_cons]
    rfl

theorem gmb_norm (parts : List MaskPart) (hne : parts ≠ []) :
    get_mask_bits (renderMaskSpec parts) = some (unionParts parts) := by
  rcases parts with _ | ⟨p, ps⟩
  · exact absurd rfl hne
  rcases ps with _ | ⟨p2, ps2⟩
  · have : renderMaskSpec [p] = p.render := rfl
    rw [this, get_mask_bits_part]
    unfold unionParts
    simp
  · rw [get_mask_bits.eq_def]
    have hc : hasChar ',' (renderMaskSpec (p :: p2 :: ps2)) = true := by
      rw [hasChar_iff]
      have : renderMaskSpec (p :: p2 :: ps2)
          = p.render ++ ',' :: joinWith ',' ((p2 :: ps2).map MaskPart.render) := rfl
      rw [this]
      exact List.mem_append_right _ (List.mem_cons_self _ _)
    rw [dif_pos hc]
    rw [mapM_attach]
    have hsplit : splitOnChar ',' (renderMaskSpec (p :: p2 :: ps2))
        = (p :: p2 :: ps2).map MaskPart.render := by
      apply split_joinWith
      · simp
      · intro q hq
        simp only [List.mem_map] at hq
        obtain ⟨mp, -, hmp⟩ := hq
        exact hmp ▸ renderPart_comma_free mp
    rw [hsplit, mapM_renders]
    rfl

/-- C7: parsing the descriptor text `SCU70[3:1,7]` yields register SCU70
with bit set {1,2,3,7} and `Strap[0]` yields Strap with {0}; in general
every comma-separated list of single bit indices and inclusive hi:lo
ranges is normalized at parse time to the explicit union of the
individual bit positions of all parts, so descriptor equality is
set-based and order-independent. -/
theorem C7_descriptor_normalization :
    parse_pd ["SCU70[3:1,7]".data]
      = some (some ⟨"SCU70".data, ({1, 2, 3, 7} : Finset Nat)⟩, [([] : Str)]) ∧
    parse_pd ["Strap[0]".data]
      = some (some ⟨"Strap".data, ({0} : Finset Nat)⟩, [([] : Str)]) ∧
    ∀ parts : List MaskPart, parts ≠ [] →
      get_mask_bits (renderMaskSpec parts) = some (unionParts parts) :=
  ⟨by decide, by decide, gmb_norm⟩

theorem C7_descriptor_normalization_witness :
    ([MaskPart.range 3 1, MaskPart.single 7] ≠ ([] : List MaskPart)) ∧
    get_mask_bits (renderMaskSpec [MaskPart.range 3 1, MaskPart.single 7])
      = some (unionParts [MaskPart.range 3 1, MaskPart.single 7]) :=
  ⟨by decide, C7_descriptor_normalization.2.2 [MaskPart.range 3 1, MaskPart.single 7]
    (by decide)⟩

theorem gen_pins_tokens (src : List Str) (filt : Option (List Str)) :
    ∀ ps, gen_pins src filt = some ps →
      ∀ line ∈ src, pyStrip line ≠ [] →
        2 ≤ (splitOnChar ' ' (pyStrip line)).length := by
  induction src with
  | nil => intro ps h line hl; simp at hl
  | cons line0 rest ih =>
    intro ps h line hl hblank
    rw [gen_pins] at h
    by_cases hb : pyStrip line0 = []
    · rw [if_pos hb] at h
      rcases List.mem_cons.mp hl with rfl | hl2
      · exact absurd hb hblank
      · exact ih ps h line hl2 hblank
    · rw [if_neg hb] at h
      rcases hs : splitOnChar ' ' (pyStrip line0) with _ | ⟨t0, ts⟩
      · exact absurd hs (splitOnChar_ne_nil _ _)
      rcases ts with _ | ⟨t1, rest2⟩
      · rw [hs] at h; simp at h
      · rcases List.mem_cons.mp hl with rfl | hl2
        · rw [hs]; simp
        · rw [hs] at h
          dsimp only at h
          rcases hps : parse_sig (some (((t0 :: t1 :: rest2).drop 2).dropLast))
            with _ | ⟨high, toksB⟩
          · rw [hps] at h; simp at h
          · rw [hps] at h
            simp only at h
            rcases hps2 : parse_sig toksB with _ | ⟨low, tkC⟩
            · rw [hps2] at h; simp at h
            · rw [hps2] at h
              simp only at h
              rcases hrec : gen_pins rest filt with _ | ps0
              · rw [hrec] at h; simp at h
              · exact ih ps0 hrec line hl2 hblank

/-- C10: the parse phase is undefined on a non-blank line of exactly one
whitespace-delimited token -- gen_pins raises an unhandled IndexError
reading the default-function token toks[1] (modelled as `none`) -- and a
defined parse requires at least two tokens on every non-blank line. -/
theorem C10_single_token_line :
    gen_pins ["FOO".data] none = none ∧
    ∀ (src : List Str) (filt : Option (List Str)) (ps : List pinV),
      gen_pins src filt = some ps →
      ∀ line ∈ src, pyStrip line ≠ [] →
        2 ≤ (splitOnChar ' ' (pyStrip line)).length :=
  ⟨by decide, fun src filt ps h => gen_pins_tokens src filt ps h⟩

theorem C10_single_token_line_witness :
    gen_pins ["A B C".data] none = some [⟨"A".data, "B".data, none, none, "C".data⟩] ∧
    ("A B C".data ∈ ["A B C".data]) ∧ pyStrip "A B C".data ≠ [] ∧
    2 ≤ (splitOnChar ' ' (pyStrip "A B C".data)).length :=
  ⟨by decide, by decide, by decide,
   C10_single_token_line.2 ["A B C".data] none
     [⟨"A".data, "B".data, none, none, "C".data⟩] (by decide)
     "A B C".data (by decide) (by decide)⟩

theorem gen_pins_filter (src : List Str) (filt : List Str) :
    ∀ ps, gen_pins src none = some ps →
      gen_pins src (some filt) = some (ps.filter
        (fun p => decide (filt = []) || decide (p.other ∈ filt))) := by
  induction src with
  | nil =>
    intro ps h
    rw [gen_pins] at h ⊢
    injection h with h
    subst h
    rfl
  | cons line0 rest ih =>
    intro ps h
    rw [gen_pins] at h ⊢
    by_cases hb : pyStrip line0 = []
    · rw [if_pos hb] at h ⊢
      exact ih ps h
    · rw [if_neg hb] at h ⊢
      rcases hs : splitOnChar ' ' (pyStrip line0) with _ | ⟨t0, ts⟩
      · exact absurd hs (splitOnChar_ne_nil _ _)
      rcases ts with _ | ⟨t1, rest2⟩
      · rw [hs] at h; simp at h
      · rw [hs] at h
        dsimp only [List.drop_succ_cons, List.drop_zero] at h ⊢
        rcases hps : parse_sig (some rest2.dropLast) with _ | ⟨high, toksB⟩
        · rw [hps] at h
          simp at h
        · rw [hps] at h
          dsimp only at h ⊢
          rcases hps2 : parse_sig toksB with _ | ⟨low, tkC⟩
          · rw [hps2] at h
            simp at h
          · rw [hps2] at h
            dsimp only at h ⊢
            rcases hrec : gen_pins rest none with _ | ps0
            · rw [hrec] at h
              simp at h
            · rw [hrec] at h
              rw [ih ps0 hrec]
              dsimp only at h ⊢
              simp only [Option.some.injEq] at h
              subst h
              simp only [Option.some.injEq, if_true]
              rw [List.filter_cons]

/-- C8 (amended): filtering by the full list of group labels of the parsed
records yields exactly the records of an unfiltered run, in order; in
general a parsed record is retained exactly when no filter was supplied,
the supplied filter set is empty (a falsy filter disables filtering), or
its group label is a member of the filter set. -/
theorem C8_filter_idempotence :
    (∀ (src : List Str) (ps : List pinV), gen_pins src none = some ps →
       gen_pins src (some (ps.map pinV.other)) = some ps) ∧
    (∀ (src : List Str) (filt : List Str) (ps : List pinV),
       gen_pins src none = some ps →
       gen_pins src (some filt) = some (ps.filter
         (fun p => decide (filt = []) || decide (p.other ∈ filt)))) := by
  constructor
  · intro src ps h
    rw [gen_pins_filter src (ps.map pinV.other) ps h]
    congr 1
    apply List.filter_eq_self.mpr
    intro p hp
    simp only [Bool.or_eq_true, decide_eq_true_eq]
    exact Or.inr (List.mem_map_of_mem pinV.other hp)
  · exact fun src filt ps h => gen_pins_filter src filt ps h

theorem C8_filter_idempotence_witness :
    gen_pins ["A B C".data] none = some [⟨"A".data, "B".data, none, none, "C".data⟩] ∧
    gen_pins ["A B C".data]
        (some ([⟨"A".data, "B".data, none, none, "C".data⟩].map pinV.other))
      = some [⟨"A".data, "B".data, none, none, "C".data⟩] :=
  ⟨by decide, C8_filter_idempotence.1 ["A B C".data]
    [⟨"A".data, "B".data, none, none, "C".data⟩] (by decide)⟩

/-- C8 counterexample: with a supplied empty filter set, a record whose
group label lies in no filter is still retained (Python treats an empty
filter as falsy and skips filtering), contradicting "retained exactly when
no filter was supplied or its group-label is a member of the filter
set". -/
theorem C8_empty_filter_retains :
    gen_pins ["A B C".data] (some [])
      = some [⟨"A".data, "B".data, none, none, "C".data⟩] ∧
    ¬ ("C".data ∈ ([] : List Str)) :=
  ⟨by decide, by simp⟩

theorem parse_pd_cons (t : Str) (p : pd_t) (rem : Str)
    (h : parse_pd [t] = some (some p, [rem])) (rest : List Str) :
    parse_pd (t :: rest) = some (some p, rem :: rest) := by
  rcases hm : pdMatch t with _ | ⟨reg, bits, whole⟩
  · simp only [parse_pd, hm] at h
    simp at h
  · rcases hg : get_mask_bits bits with _ | bs
    · simp only [parse_pd, hm, hg] at h
      exact absurd h (by simp)
    · simp only [parse_pd, hm, hg, Option.some.injEq, Prod.mk.injEq,
        List.cons.injEq, and_true] at h
      obtain ⟨hp, hrem⟩ := h
      simp only [parse_pd, hm, hg, Option.some.injEq, Prod.mk.injEq]
      exact ⟨hp, by rw [hrem]⟩

theorem parse_expr_ne (toks : List Str) (a : Val) (htk : toks ≠ [])
    (ha : a ≠ .noneV) : parse_expr toks a = parseTail toks a := by
  rw [parse_expr.eq_def]
  rw [dif_neg htk]
  cases a with
  | noneV => exact absurd rfl ha
  | pdV p => rfl
  | litV s => rfl
  | bopV op x y => rfl

theorem ChainTail_ne_none (a : Val) (toks : List Str) (w : Val)
    (h : ChainTail a toks w) (ha : a ≠ .noneV) : w ≠ .noneV := by
  induction h with
  | nil a => exact ha
  | step a o t rest s w op hscan hncmp hcmp hch ih => exact ih (by simp)

theorem parseTail_no_bop (toks : List Str) (a : Val) (tks : Option (List Str))
    (h : parse_bop toks = (none, tks)) : parseTail toks a = some (a, tks) := by
  rw [parseTail.eq_def]
  split
  · rename_i tks2 heq
    rw [h] at heq
    injection heq with h1 h2
    rw [h2]
  · rename_i op heq
    rw [h] at heq
    injection heq with h1 h2
    exact absurd h1.symm (by simp)
  · rename_i op tks1 heq
    rw [h] at heq
    injection heq with h1 h2
    exact absurd h1.symm (by simp)

theorem parseTail_step (toks : List Str) (a : Val) (op : BopOp) (tks1 : List Str)
    (b0 : Val) (x : Str) (xs : List Str) (b2 : Val) (tk2 : Option (List Str))
    (hb : parse_bop toks = (some op, some tks1))
    (ha : parse_arg tks1 = some (b0, some (x :: xs)))
    (hb0 : b0 ≠ .noneV)
    (he : parse_expr [x] b0 = some (b2, tk2)) :
    parseTail toks a =
      match parse_expr (tks1.drop 1) (.bopV op a b2) with
      | none => none
      | some (.noneV, tks3) => some (.bopV op a b2, tks3)
      | some (e2, tks3) => some (e2, tks3) := by
  rw [parseTail.eq_def]
  split
  · rename_i tks2 heq
    rw [hb] at heq
    injection heq with h1 h2
    exact absurd h1 (by simp)
  · rename_i op2 heq
    rw [hb] at heq
    injection heq with h1 h2
    exact absurd h2 (by simp)
  · rename_i op2 tks1b heq
    rw [hb] at heq
    injection heq with h1 h2
    injection h1 with h1
    injection h2 with h2
    subst h1
    subst h2
    split
    · rename_i heq2
      rw [ha] at heq2
      exact absurd heq2 (by simp)
    · rename_i b0b toks2 heq2
      rw [ha] at heq2
      injection heq2 with heq2
      injection heq2 with hx hy
      subst hx
      subst hy
      rw [dif_neg hb0]
      split
      · rename_i xv xsv hpa1 hpa2 h3 hheq
        injection h3 with h3
        injection h3 with hx3 hxs3
        subst hx3
        rw [he]
      · rename_i h3 hni
        exact absurd (hni x xs h3 rfl HEq.rfl) not_false

theorem parse_expr_start (toks : List Str) (arg : Val) (toks2 : List Str)
    (a2 : Val) (tk : Option (List Str))
    (htk : toks ≠ [])
    (ha : parse_arg toks = some (arg, some toks2))
    (harg : arg ≠ .noneV)
    (he : parse_expr (toks2.take 1) arg = some (a2, tk)) :
    parse_expr toks .noneV = parseTail (toks.drop 1) a2 := by
  rw [parse_expr.eq_def]
  rw [dif_neg htk]
  dsimp only
  split
  · rename_i heq
    rw [ha] at heq
    exact absurd heq (by simp)
  · rename_i arg2 toks2b heq
    rw [ha] at heq
    injection heq with heq
    injection heq with hx hy
    subst hx
    subst hy
    rw [dif_neg harg]
    have he2 : parse_expr (((some toks2).getD []).take 1) arg = some (a2, tk) := by
      simpa using he
    rw [he2]

theorem parseTail_chain (a : Val) (toks : List Str) (w : Val)
    (h : ChainTail a toks w) : a ≠ .noneV → parseTail toks a = some (w, none) := by
  induction h with
  | nil a =>
    intro ha
    exact parseTail_no_bop [] a none rfl
  | step a o t rest s w op hscan hncmp hcmp hch ih =>
    intro ha
    obtain ⟨p, rem, cop, lit, hpd, hex, hveq, hc⟩ := hcmp
    have hb : parse_bop (o :: t :: rest) = (some op, some (t :: rest)) := by
      simp [parse_bop, hscan, hncmp]
    have ha2 : parse_arg (t :: rest) = some (.pdV p, some (rem :: rest)) := by
      simp [parse_arg, parse_pd_cons t p rem hpd rest]
    rw [parseTail_step (o :: t :: rest) a op (t :: rest) (.pdV p) rem rest s none
          hb ha2 (by simp) hex]
    dsimp only [List.drop_succ_cons, List.drop_zero]
    cases rest with
    | nil =>
      cases hch
      have hpe : parse_expr [] (.bopV op a s) = some (.noneV, none) := by
        rw [parse_expr.eq_def]
        rw [dif_pos rfl]
      rw [hpe]
    | cons r rs =>
      rw [parse_expr_ne (r :: rs) (.bopV op a s) (by simp) (by simp)]
      rw [ih (by simp)]
      have hw : w ≠ .noneV := ChainTail_ne_none _ _ _ hch (by simp)
      cases w with
      | noneV => exact absurd rfl hw
      | pdV q => rfl
      | litV l => rfl
      | bopV o2 x y => rfl

theorem parse_expr_chain (t0 : Str) (rest : List Str) (s0 w : Val)
    (h0 : IsCmpTok t0 s0) (hch : ChainTail s0 rest w) :
    parse_expr (t0 :: rest) .noneV = some (w, none) := by
  obtain ⟨p, rem, op, lit, hpd, hex, hveq, hc⟩ := h0
  have ha : parse_arg (t0 :: rest) = some (.pdV p, some (rem :: rest)) := by
    simp [parse_arg, parse_pd_cons t0 p rem hpd rest]
  have he : parse_expr ((rem :: rest).take 1) (.pdV p) = some (s0, none) := by
    simpa using hex
  rw [parse_expr_start (t0 :: rest) (.pdV p) (rem :: rest) s0 none (by simp) ha
        (by simp) he]
  dsimp only [List.drop_succ_cons, List.drop_zero]
  exact parseTail_chain s0 rest w hch (by rw [hveq]; simp)

theorem IsCmpTok_goodTree (t : Str) (v : Val) (h : IsCmpTok t v) :
    goodTree v = true := by
  obtain ⟨p, rem, op, lit, hpd, hex, hveq, hc⟩ := h
  subst hveq
  simp [goodTree, hc]

theorem ChainTail_goodTree (a : Val) (toks : List Str) (w : Val)
    (h : ChainTail a toks w) : goodTree a = true → goodTree w = true := by
  induction h with
  | nil a => exact id
  | step a o t rest s w op hscan hncmp hcmp hch ih =>
    intro hga
    apply ih
    have hgs := IsCmpTok_goodTree t s hcmp
    simp [goodTree, hncmp, hga, hgs]

/-- C4 counterexample: the spec's token sequence `A = 1 & B = 0`, read as
the seven whitespace-separated tokens the line-splitter produces, does not
parse to a compound tree at all: after consuming the descriptor A the
parser strips the `=` from the bare operator token, then fails to read an
argument from the resulting empty token, returning None with the remaining
tokens unconsumed (lines 80-81 of parse_expr). -/
theorem C4_spaced_tokens_fail :
    parse_expr ["SCU70[0]".data, "=".data, "1".data, "&".data,
                "SCU71[1]".data, "=".data, "0".data] .noneV =
      some (.noneV, some ["".data, "1".data, "&".data,
                          "SCU71[1]".data, "=".data, "0".data]) := by
  decide

/-- C4 (amended): when each comparison is packed into a single token
(descriptor, operator and literal gaplessly, e.g. `SCU70[0]=1`) and the
combination operators `&`/`|` stand between them, parse_expr (lines 67-86)
combines the comparisons strictly left to right: two comparisons joined by
one operator give a compound node with the two simple comparisons as
children, and a third comparison joined by a second operator attaches to
the left-associated pair, yielding `(s1 op1 s2) op2 s3`. -/
theorem C4_left_associativity
    (t1 t2 t3 o1 o2 : Str) (s1 s2 s3 : Val) (op1 op2 : BopOp)
    (h1 : IsCmpTok t1 s1) (h2 : IsCmpTok t2 s2) (h3 : IsCmpTok t3 s3)
    (ho1 : bopScan o1 = some op1) (hc1 : op1.isCmp = false)
    (ho2 : bopScan o2 = some op2) (hc2 : op2.isCmp = false) :
    parse_expr [t1, o1, t2] .noneV = some (.bopV op1 s1 s2, none) ∧
    parse_expr [t1, o1, t2, o2, t3] .noneV =
      some (.bopV op2 (.bopV op1 s1 s2) s3, none) := by
  constructor
  · exact parse_expr_chain t1 [o1, t2] s1 _ h1
      (.step _ _ _ _ _ _ _ ho1 hc1 h2 (.nil _))
  · exact parse_expr_chain t1 [o1, t2, o2, t3] s1 _ h1
      (.step _ _ _ _ _ _ _ ho1 hc1 h2
        (.step _ _ _ _ _ _ _ ho2 hc2 h3 (.nil _)))

theorem C4_left_associativity_witness :
    parse_expr ["SCU70[0]=1".data, "&".data, "SCU71[1]=0".data] .noneV =
      some (.bopV .band
              (.bopV .eq (.pdV ⟨"SCU70".data, {0}⟩) (.litV "1".data))
              (.bopV .eq (.pdV ⟨"SCU71".data, {1}⟩) (.litV "0".data)), none) ∧
    parse_expr ["SCU70[0]=1".data, "&".data, "SCU71[1]=0".data,
                "|".data, "SCU72[2]=1".data] .noneV =
      some (.bopV .bor
              (.bopV .band
                (.bopV .eq (.pdV ⟨"SCU70".data, {0}⟩) (.litV "1".data))
                (.bopV .eq (.pdV ⟨"SCU71".data, {1}⟩) (.litV "0".data)))
              (.bopV .eq (.pdV ⟨"SCU72".data, {2}⟩) (.litV "1".data)), none) :=
  C4_left_associativity
    "SCU70[0]=1".data "SCU71[1]=0".data "SCU72[2]=1".data "&".data "|".data
    (.bopV .eq (.pdV ⟨"SCU70".data, {0}⟩) (.litV "1".data))
    (.bopV .eq (.pdV ⟨"SCU71".data, {1}⟩) (.litV "0".data))
    (.bopV .eq (.pdV ⟨"SCU72".data, {2}⟩) (.litV "1".data))
    .band .bor
    ⟨⟨"SCU70".data, {0}⟩, "=1".data, .eq, "1".data,
      by decide, by decide, rfl, rfl⟩
    ⟨⟨"SCU71".data, {1}⟩, "=0".data, .eq, "0".data,
      by decide, by decide, rfl, rfl⟩
    ⟨⟨"SCU72".data, {2}⟩, "=1".data, .eq, "1".data,
      by decide, by decide, rfl, rfl⟩
    (by decide) rfl (by decide) rfl

/-- C9 counterexample: from the token sequence `5 & SCU70[0]` the parser
returns a compound `&` node whose left child is None: the leading literal
is refined by a one-token lookahead against `&` which yields None (line
74), and that None flows into bop_t unchecked (line 84).  The result tree
violates the claimed invariant. -/
theorem C9_null_child :
    parse_expr ["5".data, "&".data, "SCU70[0]".data] .noneV =
      some (.bopV .band .noneV (.pdV ⟨"SCU70".data, {0}⟩), none) ∧
    goodTree (.bopV .band .noneV (.pdV ⟨"SCU70".data, {0}⟩)) = false := by
  constructor
  · decide
  · decide

/-- C9 (amended): on grammatical input -- a packed comparison token
followed by alternating combination-operator tokens and packed comparison
tokens -- parse_expr consumes everything and the resulting tree satisfies
the invariant: every leaf sits in a simple comparison (descriptor, =/!=,
literal) and no compound node has a None child.  On arbitrary token
sequences the invariant fails (see the counterexample). -/
theorem C9_parser_invariant (t0 : Str) (rest : List Str) (s0 w : Val)
    (h0 : IsCmpTok t0 s0) (hch : ChainTail s0 rest w) :
    parse_expr (t0 :: rest) .noneV = some (w, none) ∧ goodTree w = true :=
  ⟨parse_expr_chain t0 rest s0 w h0 hch,
   ChainTail_goodTree s0 rest w hch (IsCmpTok_goodTree t0 s0 h0)⟩

theorem C9_parser_invariant_witness :
    parse_expr ["SCU74[3]=1".data, "|".data, "SCU75[4]=0".data] .noneV =
      some (.bopV .bor
              (.bopV .eq (.pdV ⟨"SCU74".data, {3}⟩) (.litV "1".data))
              (.bopV .eq (.pdV ⟨"SCU75".data, {4}⟩) (.litV "0".data)), none) ∧
    goodTree (.bopV .bor
              (.bopV .eq (.pdV ⟨"SCU74".data, {3}⟩) (.litV "1".data))
              (.bopV .eq (.pdV ⟨"SCU75".data, {4}⟩) (.litV "0".data))) = true :=
  C9_parser_invariant "SCU74[3]=1".data ["|".data, "SCU75[4]=0".data]
    (.bopV .eq (.pdV ⟨"SCU74".data, {3}⟩) (.litV "1".data))
    (.bopV .bor
      (.bopV .eq (.pdV ⟨"SCU74".data, {3}⟩) (.litV "1".data))
      (.bopV .eq (.pdV ⟨"SCU75".data, {4}⟩) (.litV "0".data)))
    ⟨⟨"SCU74".data, {3}⟩, "=1".data, .eq, "1".data,
      by decide, by decide, rfl, rfl⟩
    (.step _ _ _ _ _ _ .bor (by decide) rfl
      ⟨⟨"SCU75".data, {4}⟩, "=0".data, .eq, "0".data,
        by decide, by decide, rfl, rfl⟩
      (.nil _))

/-- C1 counterexample: for the one-pin corpus pins0, whose signal
references only an empty-mask descriptor, find_networks returns the single
network frozenset() -- the signal sigS belongs to no network, so the
networks do not cover the signal set. -/
theorem C1_empty_mask_breaks_partition :
    find_networks pins0 = .ok {∅} ∧
    sigS ∈ corpusSigs pins0 ∧
    ({∅} : Finset (Finset sig_t)).biUnion id ≠ (corpusSigs pins0).toFinset := by
  decide

/-- C3 counterexample: pins1 has no compound expression at all, so
get_all_compound_pds returns the empty list; a seeding done once per
compound descriptor would run no flood fill and return no network, yet
find_networks returns the network {sigT}: it seeds from get_all_pds (every
descriptor of every expression), not from the compound descriptors. -/
theorem C3_seeding_not_compound :
    get_all_compound_pds pins1 = .ok [] ∧
    find_networks pins1 = .ok {({sigT} : Finset sig_t)} := by
  decide

set_option maxRecDepth 8192 in
set_option maxHeartbeats 2000000 in
/-- C2 counterexample: in the two-pin network netH each descriptor is
referenced by exactly one owning pin, so c = Counter with both counts 1 and
sum(c.values()) == len(c) holds; the code then marks BOTH descriptors
common, although pdA is referenced by only one pin and not by every pin of
the network. -/
theorem C2_degenerate_common :
    find_networks pins2 = .ok {netH} ∧
    relbits pins2 netH = {pdA, pdB} ∧
    cCount pins2 netH pdA = 1 ∧
    (∃ p ∈ netPins pins2 netH, pdA ∉ pinGroupPds pins2 netH p) := by
  decide

set_option maxRecDepth 8192 in
set_option maxHeartbeats 2000000 in
/-- C6 counterexample: the empty-mask descriptor pdE is referenced by the
signals of two disjoint networks; it lands in the common set of both, and
the running assertion of print_networks (line 276) fails. -/
theorem C6_assert_can_fail :
    runNetworks pins6 = .error .assertError := by
  decide

set_option maxRecDepth 8192 in
set_option maxHeartbeats 2000000 in
/-- C5 counterexample: the line `PIN DEF FOO GROUP` parses to a pin whose
high signal FOO has a null expression; alone in the corpus, the run
completes with an empty report instead of aborting -- no descriptor is
referenced anywhere, get_all_pds is empty, get_bit_sigs is never called
and the malformed record is silently skipped. -/
theorem C5_null_high_skipped :
    pinsOfLines ["PIN DEF FOO GROUP".data] none = some [pinBad] ∧
    pinBad.high = some ⟨"FOO".data, none⟩ ∧
    runNetworks [pinBad] = .ok [] := by
  decide

theorem get_pds_ne_nil (e : Expr) : get_pds (some e) ≠ [] := by
  induction e with
  | cmp op a lit => simp [get_pds]
  | comb op a b iha ihb =>
    simp only [get_pds, ne_eq, List.append_eq_nil]
    rintro ⟨h1, -⟩
    exact iha h1

theorem mem_corpusSigs (pins : List pin_t) (y : sig_t) :
    y ∈ corpusSigs pins ↔
      ∃ pin ∈ pins, pin.high = some y ∨ pin.low = some y := by
  unfold corpusSigs
  rw [List.mem_bind]
  constructor
  · rintro ⟨pin, hpin, hy⟩
    rcases List.mem_append.mp hy with h | h
    · exact ⟨pin, hpin, .inl (by cases hh : pin.high <;> rw [hh] at h <;> simp_all)⟩
    · exact ⟨pin, hpin, .inr (by cases hh : pin.low <;> rw [hh] at h <;> simp_all)⟩
  · rintro ⟨pin, hpin, h | h⟩
    · exact ⟨pin, hpin, List.mem_append.mpr (.inl (by rw [h]; simp))⟩
    · exact ⟨pin, hpin, List.mem_append.mpr (.inr (by rw [h]; simp))⟩

theorem corpusSigs_expr (pins : List pin_t) (hwf : WFCorpus pins) :
    ∀ s ∈ corpusSigs pins, s.expr ≠ none := by
  intro s hs
  rcases (mem_corpusSigs pins s).mp hs with ⟨pin, hpin, hh | hl⟩
  · obtain ⟨hs2, hh2, hne⟩ := hwf.1 pin hpin
    rw [hh] at hh2
    injection hh2 with hh2
    exact hh2 ▸ hne
  · exact hwf.2.1 pin hpin s hl

theorem mem_if_singleton {α : Type} (c : Prop) [Decidable c] (z w : α) :
    (w ∈ if c then [z] else []) ↔ (c ∧ w = z) := by
  by_cases h : c <;> simp [h]

theorem get_bit_sigs_ok (pins : List pin_t) (bit : pd_t)
    (hH : ∀ pin ∈ pins, ∃ hs, pin.high = some hs ∧ hs.expr ≠ none)
    (hL : ∀ pin ∈ pins, ∀ ls, pin.low = some ls → ls.expr ≠ none) :
    ∃ sigs, get_bit_sigs pins bit = .ok sigs ∧
      ∀ y, y ∈ sigs ↔ y ∈ corpusSigs pins ∧ sigUsesP y bit := by
  induction pins with
  | nil => exact ⟨[], rfl, by simp [corpusSigs]⟩
  | cons pin rest ih =>
    obtain ⟨hs, hhigh, hne⟩ := hH pin (by simp)
    rcases hex : hs.expr with _ | he
    · exact absurd hex hne
    obtain ⟨sigs, hsigs, hmem⟩ :=
      ih (fun p hp => hH p (by simp [hp])) (fun p hp => hL p (by simp [hp]))
    rcases hlo : pin.low with _ | lo
    · refine ⟨(if expr_uses_bits he bit then [hs] else []) ++ sigs, ?_, ?_⟩
      · simp only [get_bit_sigs, hhigh, hex, hlo, hsigs, Except.map]
      · intro y
        have hcy : y ∈ corpusSigs (pin :: rest) ↔
            y = hs ∨ y ∈ corpusSigs rest := by
          rw [mem_corpusSigs, mem_corpusSigs]
          constructor
          · rintro ⟨p, hp, hpy⟩
            rcases List.mem_cons.mp hp with rfl | hp2
            · rcases hpy with hpy | hpy
              · rw [hhigh] at hpy; injection hpy with hpy; exact .inl hpy.symm
              · rw [hlo] at hpy; exact absurd hpy (by simp)
            · exact .inr ⟨p, hp2, hpy⟩
          · rintro (rfl | ⟨p, hp, hpy⟩)
            · exact ⟨pin, by simp, .inl hhigh⟩
            · exact ⟨p, by simp [hp], hpy⟩
        rw [List.mem_append, mem_if_singleton, hmem, hcy]
        constructor
        · rintro (⟨hu, rfl⟩ | ⟨h1, h2⟩)
          · exact ⟨.inl rfl, he, hex, hu⟩
          · exact ⟨.inr h1, h2⟩
        · rintro ⟨rfl | h1, h2⟩
          · obtain ⟨e, hei, hui⟩ := h2
            rw [hex] at hei
            injection hei with hei
            subst hei
            exact .inl ⟨hui, rfl⟩
          · exact .inr ⟨h1, h2⟩
    · have hlne := hL pin (by simp) lo hlo
      rcases hlex : lo.expr with _ | le
      · exact absurd hlex hlne
      refine ⟨(if expr_uses_bits he bit then [hs] else []) ++
              ((if expr_uses_bits le bit then [lo] else []) ++ sigs), ?_, ?_⟩
      · simp only [get_bit_sigs, hhigh, hex, hlo, hlex, hsigs, Except.map,
          List.append_assoc]
      · intro y
        have hcy : y ∈ corpusSigs (pin :: rest) ↔
            y = hs ∨ y = lo ∨ y ∈ corpusSigs rest := by
          rw [mem_corpusSigs, mem_corpusSigs]
          constructor
          · rintro ⟨p, hp, hpy⟩
            rcases List.mem_cons.mp hp with rfl | hp2
            · rcases hpy with hpy | hpy
              · rw [hhigh] at hpy; injection hpy with hpy; exact .inl hpy.symm
              · rw [hlo] at hpy; injection hpy with hpy; exact .inr (.inl hpy.symm)
            · exact .inr (.inr ⟨p, hp2, hpy⟩)
          · rintro (rfl | rfl | ⟨p, hp, hpy⟩)
            · exact ⟨pin, by simp, .inl hhigh⟩
            · exact ⟨pin, by simp, .inr hlo⟩
            · exact ⟨p, by simp [hp], hpy⟩
        rw [List.mem_append, List.mem_append, mem_if_singleton,
            mem_if_singleton, hmem, hcy]
        constructor
        · rintro (⟨hu, rfl⟩ | ⟨hu, rfl⟩ | ⟨h1, h2⟩)
          · exact ⟨.inl rfl, he, hex, hu⟩
          · exact ⟨.inr (.inl rfl), le, hlex, hu⟩
          · exact ⟨.inr (.inr h1), h2⟩
        · rintro ⟨rfl | rfl | h1, h2⟩
          · obtain ⟨e, hei, hui⟩ := h2
            rw [hex] at hei
            injection hei with hei
            subst hei
            exact .inl ⟨hui, rfl⟩
          · obtain ⟨e, hei, hui⟩ := h2
            rw [hlex] at hei
            injection hei with hei
            subst hei
            exact .inr (.inl ⟨hui, rfl⟩)
          · exact .inr (.inr ⟨h1, h2⟩)

theorem allPdsAdd_keys (m : List (pd_t × List (Str × Str))) (pd : pd_t)
    (t : Str × Str) (k : pd_t) :
    k ∈ (allPdsAdd m pd t).map Prod.fst ↔ k ∈ m.map Prod.fst ∨ k = pd := by
  induction m with
  | nil => simp [allPdsAdd]
  | cons e rest ih =>
    rcases e with ⟨k0, v0⟩
    by_cases hk : k0 = pd
    · subst hk
      simp [allPdsAdd]
      tauto
    · simp only [allPdsAdd, if_neg hk, List.map_cons, List.mem_cons, ih]
      tauto

theorem foldl_allPdsAdd_keys (l : List pd_t) (t : Str × Str) (k : pd_t) :
    ∀ m, k ∈ (l.foldl (fun acc pd => allPdsAdd acc pd t) m).map Prod.fst ↔
      k ∈ m.map Prod.fst ∨ k ∈ l := by
  induction l with
  | nil => simp
  | cons pd rest ih =>
    intro m
    rw [List.foldl_cons, ih, allPdsAdd_keys]
    simp only [List.mem_cons]
    tauto

theorem addSigPds_keys (m : List (pd_t × List (Str × Str))) (other : Str)
    (s : sig_t) (k : pd_t) :
    k ∈ (addSigPds m other s).map Prod.fst ↔
      k ∈ m.map Prod.fst ∨ k ∈ get_pds s.expr := by
  exact foldl_allPdsAdd_keys (get_pds s.expr) (other, s.sig) k m

theorem get_all_pds_from_ok (pins : List pin_t)
    (hH : ∀ pin ∈ pins, pin.high ≠ none) :
    ∀ m, ∃ r, get_all_pds_from m pins = .ok r ∧
      ∀ k, k ∈ r.map Prod.fst ↔
        k ∈ m.map Prod.fst ∨ ∃ s ∈ corpusSigs pins, k ∈ get_pds s.expr := by
  induction pins with
  | nil =>
    intro m
    refine ⟨m, rfl, ?_⟩
    simp [corpusSigs]
  | cons pin rest ih =>
    intro m
    rcases hhigh : pin.high with _ | hi
    · exact absurd hhigh (hH pin (by simp))
    have hcy : ∀ y : sig_t, y ∈ corpusSigs (pin :: rest) ↔
        (pin.high = some y ∨ pin.low = some y) ∨ y ∈ corpusSigs rest := by
      intro y
      rw [mem_corpusSigs, mem_corpusSigs]
      constructor
      · rintro ⟨p, hp, hpy⟩
        rcases List.mem_cons.mp hp with rfl | hp2
        · exact .inl hpy
        · exact .inr ⟨p, hp2, hpy⟩
      · rintro (hpy | ⟨p, hp, hpy⟩)
        · exact ⟨pin, by simp, hpy⟩
        · exact ⟨p, by simp [hp], hpy⟩
    rcases hlo : pin.low with _ | lo
    · obtain ⟨r, hr, hkeys⟩ := ih (fun p hp => hH p (by simp [hp]))
        (addSigPds m pin.other hi)
      refine ⟨r, ?_, ?_⟩
      · simp only [get_all_pds_from, hhigh, hlo, hr]
      · intro k
        rw [hkeys, addSigPds_keys]
        constructor
        · rintro ((h | h) | ⟨s, hsm, hk⟩)
          · exact .inl h
          · exact .inr ⟨hi, (hcy hi).mpr (.inl (.inl hhigh)), h⟩
          · exact .inr ⟨s, (hcy s).mpr (.inr hsm), hk⟩
        · rintro (h | ⟨s, hsm, hk⟩)
          · exact .inl (.inl h)
          · rcases (hcy s).mp hsm with (hps | hps) | hps
            · rw [hhigh] at hps
              injection hps with hps
              exact .inl (.inr (hps ▸ hk))
            · rw [hlo] at hps
              exact absurd hps (by simp)
            · exact .inr ⟨s, hps, hk⟩
    · obtain ⟨r, hr, hkeys⟩ := ih (fun p hp => hH p (by simp [hp]))
        (addSigPds (addSigPds m pin.other hi) pin.other lo)
      refine ⟨r, ?_, ?_⟩
      · simp only [get_all_pds_from, hhigh, hlo, hr]
      · intro k
        rw [hkeys, addSigPds_keys, addSigPds_keys]
        constructor
        · rintro (((h | h) | h) | ⟨s, hsm, hk⟩)
          · exact .inl h
          · exact .inr ⟨hi, (hcy hi).mpr (.inl (.inl hhigh)), h⟩
          · exact .inr ⟨lo, (hcy lo).mpr (.inl (.inr hlo)), h⟩
          · exact .inr ⟨s, (hcy s).mpr (.inr hsm), hk⟩
        · rintro (h | ⟨s, hsm, hk⟩)
          · exact .inl (.inl (.inl h))
          · rcases (hcy s).mp hsm with (hps | hps) | hps
            · rw [hhigh] at hps
              injection hps with hps
              exact .inl (.inl (.inr (hps ▸ hk)))
            · rw [hlo] at hps
              injection hps with hps
              exact .inl (.inr (hps ▸ hk))
            · exact .inr ⟨s, hps, hk⟩

theorem get_all_pds_ok (pins : List pin_t)
    (hH : ∀ pin ∈ pins, pin.high ≠ none) :
    ∃ r, get_all_pds pins = .ok r ∧
      ∀ k, k ∈ r.map Prod.fst ↔ ∃ s ∈ corpusSigs pins, k ∈ get_pds s.expr := by
  obtain ⟨r, hr, hkeys⟩ := get_all_pds_from_ok pins hH []
  refine ⟨r, hr, fun k => ?_⟩
  rw [hkeys]
  simp

theorem lookupBS_upsert (m : List (pd_t × List sig_t)) (k : pd_t)
    (v : List sig_t) (k2 : pd_t) :
    lookupBS (bsigsUpsert m k v) k2 =
      if k2 = k then some v else lookupBS m k2 := by
  induction m with
  | nil =>
    simp only [bsigsUpsert, lookupBS]
    by_cases h : k2 = k
    · rw [if_pos h, if_pos h.symm]
    · rw [if_neg h, if_neg (fun he => h he.symm)]
  | cons e rest ih =>
    rcases e with ⟨k0, v0⟩
    by_cases h0 : k0 = k
    · subst h0
      simp only [bsigsUpsert, if_pos rfl, lookupBS]
      by_cases h : k2 = k0
      · rw [if_pos h.symm, if_pos h]
      · rw [if_neg (fun he => h he.symm), if_neg h,
            if_neg (fun he => h he.symm)]
    · simp only [bsigsUpsert, if_neg h0, lookupBS, ih]
      by_cases h : k0 = k2
      · rw [if_pos h, if_neg (fun he => h0 (h.trans he)), if_pos h]
      · rw [if_neg h, if_neg h]

theorem lookupBS_foldl_upsert (bits : List pd_t) (v : List sig_t)
    (k2 : pd_t) : ∀ m,
    lookupBS (bits.foldl (fun acc b => bsigsUpsert acc b v) m) k2 =
      if k2 ∈ bits then some v else lookupBS m k2 := by
  induction bits with
  | nil => intro m; simp
  | cons b rest ih =>
    intro m
    rw [List.foldl_cons, ih, lookupBS_upsert]
    by_cases hr : k2 ∈ rest
    · rw [if_pos hr, if_pos (by simp [hr])]
    · rw [if_neg hr]
      by_cases hb : k2 = b
      · rw [if_pos hb, if_pos (by simp [hb])]
      · rw [if_neg hb, if_neg (by simp [hb, hr])]

theorem upsert_values (m : List (pd_t × List sig_t)) (k : pd_t)
    (v l : List sig_t) :
    l ∈ (bsigsUpsert m k v).map Prod.snd → l = v ∨ l ∈ m.map Prod.snd := by
  induction m with
  | nil => simp [bsigsUpsert]
  | cons e rest ih =>
    rcases e with ⟨k0, v0⟩
    by_cases h0 : k0 = k
    · subst h0
      rw [show bsigsUpsert ((k0, v0) :: rest) k0 v = (k0, v) :: rest from by
        simp [bsigsUpsert]]
      simp only [List.map_cons, List.mem_cons]
      tauto
    · simp only [bsigsUpsert, if_neg h0, List.map_cons, List.mem_cons]
      intro h
      rcases h with h | h
      · exact .inr (.inl h)
      · rcases ih h with h2 | h2
        · exact .inl h2
        · exact .inr (.inr h2)

theorem foldl_upsert_values (bits : List pd_t) (v l : List sig_t) : ∀ m,
    l ∈ ((bits.foldl (fun acc b => bsigsUpsert acc b v) m).map Prod.snd) →
      l = v ∨ l ∈ m.map Prod.snd := by
  induction bits with
  | nil => intro m h; exact .inr h
  | cons b rest ih =>
    intro m h
    rcases ih (bsigsUpsert m b v) h with h2 | h2
    · exact .inl h2
    · exact upsert_values m b v l h2

theorem gen_bit_sigs_lookup_from_ok (pins : List pin_t)
    (pds : List pd_t)
    (hok : ∀ pd ∈ pds, ∃ sigs, get_bit_sigs pins pd = .ok sigs) : ∀ m,
    ∃ bsigs, gen_bit_sigs_lookup_from pins m pds = .ok bsigs ∧
      (∀ bit l, lookupBS bsigs bit = some l →
        lookupBS m bit = some l ∨
          ∃ pd ∈ pds, bit ∈ explode_pd pd ∧ get_bit_sigs pins pd = .ok l) ∧
      (∀ bit, (∃ l, lookupBS m bit = some l) ∨ (∃ pd ∈ pds, bit ∈ explode_pd pd) →
        ∃ l, lookupBS bsigs bit = some l) ∧
      (∀ l, l ∈ bsigs.map Prod.snd → l ∈ m.map Prod.snd ∨
        ∃ pd ∈ pds, get_bit_sigs pins pd = .ok l) := by
  induction pds with
  | nil =>
    intro m
    refine ⟨m, rfl, ?_, ?_, ?_⟩
    · intro bit l h; exact .inl h
    · intro bit h
      rcases h with h | h
      · exact h
      · simp at h
    · intro l h; exact .inl h
  | cons pd rest ih =>
    intro m
    obtain ⟨sigs, hsigs⟩ := hok pd (by simp)
    obtain ⟨bsigs, hb, hlook, hcov, hval⟩ :=
      ih (fun p hp => hok p (by simp [hp]))
        ((explode_pd pd).foldl (fun acc bit => bsigsUpsert acc bit sigs) m)
    refine ⟨bsigs, ?_, ?_, ?_, ?_⟩
    · simp only [gen_bit_sigs_lookup_from, hsigs, hb]
    · intro bit l h
      rcases hlook bit l h with h2 | h2
      · rw [lookupBS_foldl_upsert] at h2
        by_cases hz : bit ∈ explode_pd pd
        · rw [if_pos hz] at h2
          injection h2 with h2
          exact .inr ⟨pd, by simp, hz, h2 ▸ hsigs⟩
        · rw [if_neg hz] at h2
          exact .inl h2
      · obtain ⟨p, hp, hz, hg⟩ := h2
        exact .inr ⟨p, by simp [hp], hz, hg⟩
    · intro bit h
      apply hcov
      rcases h with ⟨l, hl⟩ | ⟨p, hp, hz⟩
      · by_cases hz : bit ∈ explode_pd pd
        · exact .inl ⟨sigs, by rw [lookupBS_foldl_upsert, if_pos hz]⟩
        · exact .inl ⟨l, by rw [lookupBS_foldl_upsert, if_neg hz]; exact hl⟩
      · rcases List.mem_cons.mp hp with rfl | hp2
        · refine .inl ⟨sigs, ?_⟩
          rw [lookupBS_foldl_upsert, if_pos hz]
        · exact .inr ⟨p, hp2, hz⟩
    · intro l h
      rcases hval l h with h2 | h2
      · rcases foldl_upsert_values (explode_pd pd) sigs l m h2 with h3 | h3
        · exact .inr ⟨pd, by simp, h3 ▸ hsigs⟩
        · exact .inl h3
      · obtain ⟨p, hp, hg⟩ := h2
        exact .inr ⟨p, by simp [hp], hg⟩

theorem lookupBS_mem_values (m : List (pd_t × List sig_t)) (k : pd_t)
    (l : List sig_t) (h : lookupBS m k = some l) : l ∈ m.map Prod.snd := by
  induction m with
  | nil => simp [lookupBS] at h
  | cons e rest ih =>
    rcases e with ⟨k0, v0⟩
    simp only [lookupBS] at h
    by_cases h0 : k0 = k
    · rw [if_pos h0] at h
      injection h with h
      simp [h]
    · rw [if_neg h0] at h
      simp [ih h]

theorem mem_bsigsAll_iff (bsigs : List (pd_t × List sig_t)) (y : sig_t) :
    y ∈ bsigsAll bsigs ↔ ∃ l ∈ bsigs.map Prod.snd, y ∈ l := by
  unfold bsigsAll
  rw [List.mem_join]

theorem value_length_le (bsigs : List (pd_t × List sig_t)) (l : List sig_t)
    (h : l ∈ bsigs.map Prod.snd) : l.length ≤ maxBsigsLen bsigs := by
  induction bsigs with
  | nil => simp at h
  | cons e rest ih =>
    rcases List.mem_cons.mp h with h2 | h2
    · show l.length ≤ max e.2.length (maxBsigsLen rest)
      rw [h2]
      exact le_max_left _ _
    · exact le_trans (ih h2) (le_max_right _ _)

theorem mem_explode_pd (pd bit : pd_t) :
    bit ∈ explode_pd pd ↔ ∃ b ∈ pd.mask, bit = ⟨pd.reg, {b}⟩ := by
  unfold explode_pd
  rw [List.mem_map]
  constructor
  · rintro ⟨b, hb, rfl⟩
    exact ⟨b, by simpa using (List.mem_filter.mp hb).2, rfl⟩
  · rintro ⟨b, hb, rfl⟩
    refine ⟨b, List.mem_filter.mpr ⟨List.mem_range.mpr ?_, by simpa using hb⟩, rfl⟩
    exact Nat.lt_succ_of_le (Finset.le_sup (f := id) hb)

theorem explode_pd_length (pd : pd_t) :
    (explode_pd pd).length = pd.mask.card := by
  unfold explode_pd
  rw [List.length_map]
  have hnd : ((List.range (pd.mask.sup id + 1)).filter (· ∈ pd.mask)).Nodup :=
    (List.nodup_range _).filter _
  rw [← List.toFinset_card_of_nodup hnd]
  congr 1
  ext b
  simp only [List.mem_toFinset, List.mem_filter, List.mem_range, decide_eq_true_eq]
  constructor
  · rintro ⟨-, hb⟩; exact hb
  · intro hb
    exact ⟨Nat.lt_succ_of_le (Finset.le_sup (f := id) hb), hb⟩

theorem get_simple_pds_eq (e : Expr) : get_simple_pds e = get_pds (some e) := by
  induction e with
  | cmp op a lit => simp [get_simple_pds, get_pds]
  | comb op a b iha ihb =>
    show get_simple_pds a ++ get_simple_pds b = _
    rw [iha, ihb]
    simp [get_pds]

theorem inter_ne_empty_iff (s u : Finset Nat) :
    s ∩ u ≠ ∅ ↔ ∃ b ∈ s, b ∈ u := by
  rw [← Finset.nonempty_iff_ne_empty]
  constructor
  · rintro ⟨b, hb⟩
    rw [Finset.mem_inter] at hb
    exact ⟨b, hb.1, hb.2⟩
  · rintro ⟨b, h1, h2⟩
    exact ⟨b, Finset.mem_inter.mpr ⟨h1, h2⟩⟩

theorem expr_uses_bits_iff (e : Expr) (t : pd_t) :
    expr_uses_bits e t = true ↔
      ∃ q ∈ get_pds (some e), q.reg = t.reg ∧ ∃ b ∈ q.mask, b ∈ t.mask := by
  induction e with
  | cmp op a lit =>
    show (decide (a.mask ∩ t.mask ≠ ∅) && decide (a.reg = t.reg)) = true ↔ _
    rw [Bool.and_eq_true, decide_eq_true_eq, decide_eq_true_eq,
        inter_ne_empty_iff]
    constructor
    · rintro ⟨⟨b, h1, h2⟩, hr⟩
      exact ⟨a, by simp [get_pds], hr, b, h1, h2⟩
    · rintro ⟨q, hq, hr, b, h1, h2⟩
      have : q = a := by simpa [get_pds] using hq
      subst this
      exact ⟨⟨b, h1, h2⟩, hr⟩
  | comb op a b iha ihb =>
    show (expr_uses_bits a t || expr_uses_bits b t) = true ↔ _
    rw [Bool.or_eq_true, iha, ihb]
    have hsplit : get_pds (some (Expr.comb op a b)) =
        get_pds (some a) ++ get_pds (some b) := by simp [get_pds]
    rw [hsplit]
    constructor
    · rintro (⟨q, hq, hrest⟩ | ⟨q, hq, hrest⟩)
      · exact ⟨q, List.mem_append.mpr (.inl hq), hrest⟩
      · exact ⟨q, List.mem_append.mpr (.inr hq), hrest⟩
    · rintro ⟨q, hq, hrest⟩
      rcases List.mem_append.mp hq with h | h
      · exact .inl ⟨q, h, hrest⟩
      · exact .inr ⟨q, h, hrest⟩

theorem foldlM_bits_ok (bsigs : List (pd_t × List sig_t)) (bits : List pd_t)
    (hcov : ∀ bit ∈ bits, ∃ l, lookupBS bsigs bit = some l) : ∀ acc,
    ∃ out, (bits.foldlM (seedStep bsigs) acc) = .ok out ∧
      (∀ y, y ∈ out ↔ y ∈ acc ∨
        ∃ bit ∈ bits, ∃ l, lookupBS bsigs bit = some l ∧ y ∈ l) ∧
      out.length ≤ acc.length + bits.length * maxBsigsLen bsigs := by
  induction bits with
  | nil =>
    intro acc
    refine ⟨acc, rfl, by simp, by simp⟩
  | cons bit bs ih =>
    intro acc
    obtain ⟨l, hl⟩ := hcov bit (by simp)
    obtain ⟨out, hout, hmem, hlen⟩ := ih (fun b hb => hcov b (by simp [hb])) (acc ++ l)
    refine ⟨out, ?_, ?_, ?_⟩
    · rw [List.foldlM_cons]
      simp only [seedStep, hl]
      exact hout
    · intro y
      rw [hmem y, List.mem_append]
      constructor
      · rintro ((hy | hy) | ⟨b, hb, l2, hl2, hy⟩)
        · exact .inl hy
        · exact .inr ⟨bit, by simp, l, hl, hy⟩
        · exact .inr ⟨b, by simp [hb], l2, hl2, hy⟩
      · rintro (hy | ⟨b, hb, l2, hl2, hy⟩)
        · exact .inl (.inl hy)
        · rcases List.mem_cons.mp hb with rfl | hb2
          · rw [hl] at hl2
            injection hl2 with hl2
            exact .inl (.inr (hl2 ▸ hy))
          · exact .inr ⟨b, hb2, l2, hl2, hy⟩
    · have hlsz : l.length ≤ maxBsigsLen bsigs :=
        value_length_le bsigs l (lookupBS_mem_values bsigs bit l hl)
      rw [List.length_append] at hlen
      calc out.length ≤ acc.length + l.length + bs.length * maxBsigsLen bsigs := hlen
        _ ≤ acc.length + maxBsigsLen bsigs + bs.length * maxBsigsLen bsigs := by omega
        _ = acc.length + (bs.length + 1) * maxBsigsLen bsigs := by ring
        _ = acc.length + (bit :: bs).length * maxBsigsLen bsigs := by
              rw [List.length_cons]

theorem foldlM_pds_ok (bsigs : List (pd_t × List sig_t)) (pds : List pd_t)
    (hcov : ∀ pd ∈ pds, ∀ bit ∈ explode_pd pd, ∃ l, lookupBS bsigs bit = some l) :
    ∀ acc,
    ∃ out, (pds.foldlM (fun acc2 pd =>
        (explode_pd pd).foldlM (seedStep bsigs) acc2) acc) = .ok out ∧
      (∀ y, y ∈ out ↔ y ∈ acc ∨
        ∃ pd ∈ pds, ∃ bit ∈ explode_pd pd, ∃ l,
          lookupBS bsigs bit = some l ∧ y ∈ l) ∧
      out.length ≤ acc.length +
        pds.foldr (fun pd a => pd.mask.card * maxBsigsLen bsigs + a) 0 := by
  induction pds with
  | nil =>
    intro acc
    refine ⟨acc, rfl, by simp, by simp⟩
  | cons pd rest ih =>
    intro acc
    obtain ⟨mid, hmid, hmmem, hmlen⟩ :=
      foldlM_bits_ok bsigs (explode_pd pd) (hcov pd (by simp)) acc
    obtain ⟨out, hout, hmem, hlen⟩ :=
      ih (fun p hp => hcov p (by simp [hp])) mid
    refine ⟨out, ?_, ?_, ?_⟩
    · rw [List.foldlM_cons, hmid]
      exact hout
    · intro y
      rw [hmem y, hmmem y]
      constructor
      · rintro ((hy | ⟨bit, hbit, l, hl, hy⟩) | ⟨p, hp, bit, hbit, l, hl, hy⟩)
        · exact .inl hy
        · exact .inr ⟨pd, by simp, bit, hbit, l, hl, hy⟩
        · exact .inr ⟨p, by simp [hp], bit, hbit, l, hl, hy⟩
      · rintro (hy | ⟨p, hp, bit, hbit, l, hl, hy⟩)
        · exact .inl (.inl hy)
        · rcases List.mem_cons.mp hp with rfl | hp2
          · exact .inl (.inr ⟨bit, hbit, l, hl, hy⟩)
          · exact .inr ⟨p, hp2, bit, hbit, l, hl, hy⟩
    · rw [explode_pd_length] at hmlen
      rw [List.foldr_cons]
      omega

theorem floodCands_ok (bsigs : List (pd_t × List sig_t)) (s : sig_t) (e : Expr)
    (hexp : s.expr = some e)
    (hcov : ∀ pd ∈ get_simple_pds e, ∀ bit ∈ explode_pd pd,
      ∃ l, lookupBS bsigs bit = some l) :
    ∃ cands, floodCands bsigs s = .ok cands ∧
      (∀ y, y ∈ cands ↔ ∃ pd ∈ get_simple_pds e, ∃ bit ∈ explode_pd pd,
        ∃ l, lookupBS bsigs bit = some l ∧ y ∈ l) ∧
      cands.length ≤ candBound bsigs s := by
  obtain ⟨out, hout, hmem, hlen⟩ := foldlM_pds_ok bsigs (get_simple_pds e) hcov []
  refine ⟨out, ?_, ?_, ?_⟩
  · unfold floodCands
    rw [hexp]
    exact hout
  · intro y
    rw [hmem y]
    simp
  · unfold candBound
    rw [hexp]
    simpa using hlen

theorem flood_cons (bsigs : List (pd_t × List sig_t)) (fuel : Nat) (x : sig_t)
    (xs rels : List sig_t) :
    flood bsigs (fuel + 1) (x :: xs) rels =
      match floodCands bsigs ((x :: xs).getLast (by simp)) with
      | .error e => .error e
      | .ok cands =>
        flood bsigs fuel ((x :: xs).dropLast ++
            cands.filter (fun n => decide (¬ (n ∈ (x :: xs).dropLast ∨
              n ∈ rels ++ [(x :: xs).getLast (by simp)]))))
          (rels ++ [(x :: xs).getLast (by simp)]) := rfl

theorem flood_spec (bsigs : List (pd_t × List sig_t)) (T : Nat)
    (G : sig_t → Prop)
    (Hcands : ∀ s ∈ bsigsAll bsigs, ∃ cands, floodCands bsigs s = .ok cands ∧
      (∀ y ∈ cands, y ∈ bsigsAll bsigs) ∧ cands.length ≤ T)
    (HG : ∀ x ∈ bsigsAll bsigs, G x → ∀ cands, floodCands bsigs x = .ok cands →
      ∀ y ∈ cands, G y) :
    ∀ fuel q rels,
    (∀ s ∈ q, s ∈ bsigsAll bsigs) → (∀ s ∈ rels, s ∈ bsigsAll bsigs) →
    (∀ s ∈ q, G s) → (∀ s ∈ rels, G s) →
    (∀ x ∈ rels, ∀ cands, floodCands bsigs x = .ok cands →
      ∀ y ∈ cands, y ∈ q ∨ y ∈ rels) →
    (((bsigsAll bsigs).toFinset \ rels.toFinset).card * (T + 2) +
      q.length + 1 ≤ fuel) →
    ∃ out, flood bsigs fuel q rels = .ok out ∧
      (∀ s ∈ q, s ∈ out) ∧ (∀ s ∈ rels, s ∈ out) ∧
      (∀ s ∈ out, G s) ∧ (∀ s ∈ out, s ∈ bsigsAll bsigs) ∧
      (∀ x ∈ out, ∀ cands, floodCands bsigs x = .ok cands →
        ∀ y ∈ cands, y ∈ out) := by
  intro fuel
  induction fuel with
  | zero =>
    intro q rels hqB hrB hqG hrG hdone hfuel
    cases q with
    | nil =>
      refine ⟨rels, rfl, by simp, fun s hs => hs, hrG, hrB, ?_⟩
      intro x hx cands hc y hy
      rcases hdone x hx cands hc y hy with h | h
      · exact absurd h (by simp)
      · exact h
    | cons x xs => simp at hfuel
  | succ fuel ih =>
    intro q rels hqB hrB hqG hrG hdone hfuel
    cases q with
    | nil =>
      refine ⟨rels, rfl, by simp, fun s hs => hs, hrG, hrB, ?_⟩
      intro x hx cands hc y hy
      rcases hdone x hx cands hc y hy with h | h
      · exact absurd h (by simp)
      · exact h
    | cons x xs =>
      have hLne : (x :: xs) ≠ ([] : List sig_t) := by simp
      have hsig_mem : (x :: xs).getLast hLne ∈ (x :: xs) := List.getLast_mem _
      have hsigB := hqB _ hsig_mem
      have hsigG := hqG _ hsig_mem
      obtain ⟨cands, hc, hcB, hcT⟩ := Hcands _ hsigB
      rw [flood_cons]
      simp only [hc]
      have hsplit : (x :: xs).dropLast ++ [(x :: xs).getLast hLne] = x :: xs :=
        List.dropLast_append_getLast hLne
      have hmemL : ∀ y : sig_t, y ∈ (x :: xs) ↔
          y ∈ (x :: xs).dropLast ∨ y = (x :: xs).getLast hLne := by
        intro y
        have h2 : y ∈ (x :: xs).dropLast ++ [(x :: xs).getLast hLne] ↔
            y ∈ (x :: xs) := by rw [hsplit]
        rw [← h2, List.mem_append, List.mem_singleton]
      have hq1len : (x :: xs).dropLast.length + 1 = (x :: xs).length := by
        rw [List.length_dropLast]
        simp
      have hq1B : ∀ s ∈ (x :: xs).dropLast, s ∈ bsigsAll bsigs :=
        fun s hs => hqB s ((hmemL s).mpr (.inl hs))
      have hq1G : ∀ s ∈ (x :: xs).dropLast, G s :=
        fun s hs => hqG s ((hmemL s).mpr (.inl hs))
      have hr1B : ∀ s ∈ rels ++ [(x :: xs).getLast hLne], s ∈ bsigsAll bsigs := by
        intro s hs
        rcases List.mem_append.mp hs with h | h
        · exact hrB s h
        · rw [List.mem_singleton.mp h]; exact hsigB
      have hr1G : ∀ s ∈ rels ++ [(x :: xs).getLast hLne], G s := by
        intro s hs
        rcases List.mem_append.mp hs with h | h
        · exact hrG s h
        · rw [List.mem_singleton.mp h]; exact hsigG
      have hsig_r1 : (x :: xs).getLast hLne ∈ rels ++ [(x :: xs).getLast hLne] :=
        List.mem_append.mpr (.inr (by simp))
      by_cases hr : (x :: xs).getLast hLne ∈ rels
      · have hnil : cands.filter (fun n => decide (¬ (n ∈ (x :: xs).dropLast ∨
            n ∈ rels ++ [(x :: xs).getLast hLne]))) = [] := by
          rw [List.filter_eq_nil_iff]
          intro y hy
          have hyin : y ∈ (x :: xs).dropLast ∨
              y ∈ rels ++ [(x :: xs).getLast hLne] := by
            rcases hdone _ hr cands hc y hy with h | h
            · rcases (hmemL y).mp h with h2 | h2
              · exact .inl h2
              · exact .inr (List.mem_append.mpr (.inr (by simp [h2])))
            · exact .inr (List.mem_append.mpr (.inl h))
          simp
          intro h1 h2
          rcases hyin with h | h
          · exact absurd h h1
          · rcases List.mem_append.mp h with h3 | h3
            · exact absurd h3 h2
            · exact List.mem_singleton.mp h3
        rw [hnil, List.append_nil]
        have hdone1 : ∀ x2 ∈ rels ++ [(x :: xs).getLast hLne],
            ∀ cands2, floodCands bsigs x2 = .ok cands2 →
            ∀ y ∈ cands2, y ∈ (x :: xs).dropLast ∨
              y ∈ rels ++ [(x :: xs).getLast hLne] := by
          intro x2 hx2 cands2 hc2 y hy
          have hx2r : x2 ∈ rels := by
            rcases List.mem_append.mp hx2 with h | h
            · exact h
            · rw [List.mem_singleton.mp h]; exact hr
          rcases hdone x2 hx2r cands2 hc2 y hy with h | h
          · rcases (hmemL y).mp h with h2 | h2
            · exact .inl h2
            · exact .inr (List.mem_append.mpr (.inr (by simp [h2])))
          · exact .inr (List.mem_append.mpr (.inl h))
        have hfin : (rels ++ [(x :: xs).getLast hLne]).toFinset = rels.toFinset := by
          rw [List.toFinset_append]
          have h1 : ([(x :: xs).getLast hLne] : List sig_t).toFinset =
              {(x :: xs).getLast hLne} := by simp
          rw [h1, Finset.union_eq_left]
          intro a ha
          rw [Finset.mem_singleton] at ha
          rw [List.mem_toFinset, ha]
          exact hr
        have hfuel1 : ((bsigsAll bsigs).toFinset \
            (rels ++ [(x :: xs).getLast hLne]).toFinset).card * (T + 2) +
            (x :: xs).dropLast.length + 1 ≤ fuel := by
          rw [hfin]
          omega
        obtain ⟨out, hflood, hoq, hor, hoG, hoB, hoC⟩ :=
          ih (x :: xs).dropLast (rels ++ [(x :: xs).getLast hLne])
            hq1B hr1B hq1G hr1G hdone1 hfuel1
        refine ⟨out, hflood, ?_, ?_, hoG, hoB, hoC⟩
        · intro s hs
          rcases (hmemL s).mp hs with h | h
          · exact hoq s h
          · exact hor _ (by rw [h]; exact hsig_r1)
        · intro s hs
          exact hor s (List.mem_append.mpr (.inl hs))
      · have hnB : ∀ s ∈ cands.filter (fun n => decide (¬ (n ∈ (x :: xs).dropLast ∨
            n ∈ rels ++ [(x :: xs).getLast hLne]))), s ∈ bsigsAll bsigs := by
          intro s hs
          exact hcB s (List.mem_of_mem_filter hs)
        have hnG : ∀ s ∈ cands.filter (fun n => decide (¬ (n ∈ (x :: xs).dropLast ∨
            n ∈ rels ++ [(x :: xs).getLast hLne]))), G s := by
          intro s hs
          exact HG _ hsigB hsigG cands hc s (List.mem_of_mem_filter hs)
        have hq2B : ∀ s ∈ (x :: xs).dropLast ++ cands.filter
            (fun n => decide (¬ (n ∈ (x :: xs).dropLast ∨
              n ∈ rels ++ [(x :: xs).getLast hLne]))), s ∈ bsigsAll bsigs := by
          intro s hs
          rcases List.mem_append.mp hs with h | h
          · exact hq1B s h
          · exact hnB s h
        have hq2G : ∀ s ∈ (x :: xs).dropLast ++ cands.filter
            (fun n => decide (¬ (n ∈ (x :: xs).dropLast ∨
              n ∈ rels ++ [(x :: xs).getLast hLne]))), G s := by
          intro s hs
          rcases List.mem_append.mp hs with h | h
          · exact hq1G s h
          · exact hnG s h
        have hdone1 : ∀ x2 ∈ rels ++ [(x :: xs).getLast hLne],
            ∀ cands2, floodCands bsigs x2 = .ok cands2 →
            ∀ y ∈ cands2, y ∈ (x :: xs).dropLast ++ cands.filter
              (fun n => decide (¬ (n ∈ (x :: xs).dropLast ∨
                n ∈ rels ++ [(x :: xs).getLast hLne]))) ∨
              y ∈ rels ++ [(x :: xs).getLast hLne] := by
          intro x2 hx2 cands2 hc2 y hy
          rcases List.mem_append.mp hx2 with hx2r | hx2s
          · rcases hdone x2 hx2r cands2 hc2 y hy with h | h
            · rcases (hmemL y).mp h with h2 | h2
              · exact .inl (List.mem_append.mpr (.inl h2))
              · exact .inr (List.mem_append.mpr (.inr (by simp [h2])))
            · exact .inr (List.mem_append.mpr (.inl h))
          · have hx2e : x2 = (x :: xs).getLast hLne := List.mem_singleton.mp hx2s
            subst hx2e
            rw [hc] at hc2
            injection hc2 with hc2
            subst hc2
            by_cases hyp : y ∈ (x :: xs).dropLast ∨
                y ∈ rels ++ [(x :: xs).getLast hLne]
            · rcases hyp with h2 | h2
              · exact .inl (List.mem_append.mpr (.inl h2))
              · exact .inr h2
            · refine .inl (List.mem_append.mpr (.inr ?_))
              rw [List.mem_filter]
              exact ⟨hy, by simpa using hyp⟩
        have hfuel1 : ((bsigsAll bsigs).toFinset \
            (rels ++ [(x :: xs).getLast hLne]).toFinset).card * (T + 2) +
            ((x :: xs).dropLast ++ cands.filter
              (fun n => decide (¬ (n ∈ (x :: xs).dropLast ∨
                n ∈ rels ++ [(x :: xs).getLast hLne])))).length + 1 ≤ fuel := by
          have hfin : (rels ++ [(x :: xs).getLast hLne]).toFinset =
              insert ((x :: xs).getLast hLne) rels.toFinset := by
            rw [List.toFinset_append]
            have h1 : ([(x :: xs).getLast hLne] : List sig_t).toFinset =
                {(x :: xs).getLast hLne} := by simp
            rw [h1, Finset.union_comm, ← Finset.insert_eq]
          have hsd : (bsigsAll bsigs).toFinset \
              (insert ((x :: xs).getLast hLne) rels.toFinset) =
              ((bsigsAll bsigs).toFinset \ rels.toFinset).erase
                ((x :: xs).getLast hLne) := by
            ext a
            simp only [Finset.mem_sdiff, Finset.mem_insert, Finset.mem_erase]
            tauto
          have hsmem : (x :: xs).getLast hLne ∈
              (bsigsAll bsigs).toFinset \ rels.toFinset := by
            rw [Finset.mem_sdiff, List.mem_toFinset, List.mem_toFinset]
            exact ⟨hsigB, hr⟩
          have hcard : (((bsigsAll bsigs).toFinset \ rels.toFinset).erase
              ((x :: xs).getLast hLne)).card =
              ((bsigsAll bsigs).toFinset \ rels.toFinset).card - 1 :=
            Finset.card_erase_of_mem hsmem
          have hpos : 1 ≤ ((bsigsAll bsigs).toFinset \ rels.toFinset).card :=
            Finset.card_pos.mpr ⟨_, hsmem⟩
          obtain ⟨c, hcEq⟩ : ∃ c, ((bsigsAll bsigs).toFinset \
              rels.toFinset).card = c + 1 :=
            ⟨((bsigsAll bsigs).toFinset \ rels.toFinset).card - 1, by omega⟩
          have hmul : (c + 1) * (T + 2) = c * (T + 2) + (T + 2) := by ring
          have hflen : (cands.filter (fun n => decide (¬ (n ∈ (x :: xs).dropLast ∨
              n ∈ rels ++ [(x :: xs).getLast hLne])))).length ≤ cands.length :=
            List.length_filter_le _ _
          rw [hfin, hsd, hcard, List.length_append, hcEq]
          simp only [Nat.add_sub_cancel]
          rw [hcEq, hmul] at hfuel
          omega
        obtain ⟨out, hflood, hoq, hor, hoG, hoB, hoC⟩ :=
          ih _ _ hq2B hr1B hq2G hr1G hdone1 hfuel1
        refine ⟨out, hflood, ?_, ?_, hoG, hoB, hoC⟩
        · intro s hs
          rcases (hmemL s).mp hs with h | h
          · exact hoq s (List.mem_append.mpr (.inl h))
          · exact hor _ (by rw [h]; exact hsig_r1)
        · intro s hs
          exact hor s (List.mem_append.mpr (.inl hs))

theorem sigRel_symm (s t : sig_t) (h : SigRel s t) : SigRel t s := by
  obtain ⟨pd, hpd, b, hb, q, hq, hreg, hbq⟩ := h
  exact ⟨q, hq, b, hbq, pd, hpd, hreg.symm, hb⟩

theorem reach_corpus (pins : List pin_t) (x y : sig_t)
    (hx : x ∈ corpusSigs pins) (h : Reach pins x y) : y ∈ corpusSigs pins := by
  induction h with
  | refl => exact hx
  | tail hxb hbc ih => exact hbc.2

theorem reach_symm (pins : List pin_t) (x y : sig_t)
    (hx : x ∈ corpusSigs pins) (h : Reach pins x y) : Reach pins y x := by
  induction h with
  | refl => exact Relation.ReflTransGen.refl
  | tail hxb hbc ih =>
    rename_i b c
    have hbcorp : b ∈ corpusSigs pins := reach_corpus pins x b hx hxb
    exact Relation.ReflTransGen.head ⟨sigRel_symm b c hbc.1, hbcorp⟩ ih

theorem foldr_add_le (f : sig_t → Nat) (s : sig_t) (l : List sig_t)
    (hs : s ∈ l) : f s ≤ (l.map f).foldr (· + ·) 0 := by
  induction l with
  | nil => simp at hs
  | cons a rest ih =>
    rw [List.map_cons, List.foldr_cons]
    rcases List.mem_cons.mp hs with rfl | h
    · omega
    · have := ih h
      omega

theorem candBound_le_total (bsigs : List (pd_t × List sig_t)) (s : sig_t)
    (hs : s ∈ bsigsAll bsigs) : candBound bsigs s ≤ totalCandBound bsigs :=
  foldr_add_le (candBound bsigs) s (bsigsAll bsigs) hs

theorem mapM_ok_of_forall {α β : Type} (f : α → Except NetErr β)
    (P : α → β → Prop) :
    ∀ l : List α, (∀ a ∈ l, ∃ b, f a = .ok b ∧ P a b) →
    ∃ r, l.mapM f = .ok r ∧ List.Forall₂ P l r := by
  intro l
  induction l with
  | nil => intro h; exact ⟨[], rfl, .nil⟩
  | cons a as ih =>
    intro h
    obtain ⟨b, hb, hP⟩ := h a (by simp)
    obtain ⟨r, hr, hF⟩ := ih (fun x hx => h x (by simp [hx]))
    refine ⟨b :: r, ?_, .cons hP hF⟩
    rw [List.mapM_cons, hb, hr]
    rfl

theorem forall₂_mem_right {α β : Type} {P : α → β → Prop} :
    ∀ {l : List α} {r : List β}, List.Forall₂ P l r →
      ∀ b ∈ r, ∃ a ∈ l, P a b := by
  intro l r h
  induction h with
  | nil => intro b hb; simp at hb
  | cons hP hF ih =>
    intro b hb
    rcases List.mem_cons.mp hb with rfl | hb2
    · exact ⟨_, by simp, hP⟩
    · obtain ⟨a, ha, hab⟩ := ih b hb2
      exact ⟨a, by simp [ha], hab⟩

theorem forall₂_mem_left {α β : Type} {P : α → β → Prop} :
    ∀ {l : List α} {r : List β}, List.Forall₂ P l r →
      ∀ a ∈ l, ∃ b ∈ r, P a b := by
  intro l r h
  induction h with
  | nil => intro a ha; simp at ha
  | cons hP hF ih =>
    intro a ha
    rcases List.mem_cons.mp ha with rfl | ha2
    · exact ⟨_, by simp, hP⟩
    · obtain ⟨b, hb, hab⟩ := ih a ha2
      exact ⟨b, by simp [hb], hab⟩

theorem networks_context (pins : List pin_t) (hwf : WFCorpus pins) :
    ∃ m bsigs, get_all_pds pins = .ok m ∧
      gen_bit_sigs_lookup pins (m.map Prod.fst) = .ok bsigs ∧
      (∀ k, k ∈ m.map Prod.fst ↔ ∃ s ∈ corpusSigs pins, k ∈ get_pds s.expr) ∧
      (∀ bit l, lookupBS bsigs bit = some l →
        ∃ pd ∈ m.map Prod.fst, bit ∈ explode_pd pd ∧
          get_bit_sigs pins pd = .ok l) ∧
      (∀ bit, (∃ pd ∈ m.map Prod.fst, bit ∈ explode_pd pd) →
        ∃ l, lookupBS bsigs bit = some l) ∧
      (∀ y, y ∈ bsigsAll bsigs → y ∈ corpusSigs pins) := by
  have hH0 : ∀ pin ∈ pins, pin.high ≠ none := by
    intro pin hp
    obtain ⟨hs, hh, -⟩ := hwf.1 pin hp
    rw [hh]
    simp
  have hH : ∀ pin ∈ pins, ∃ hs, pin.high = some hs ∧ hs.expr ≠ none := hwf.1
  have hL : ∀ pin ∈ pins, ∀ ls, pin.low = some ls → ls.expr ≠ none := hwf.2.1
  obtain ⟨m, hm, hkeys⟩ := get_all_pds_ok pins hH0
  have hok : ∀ pd ∈ m.map Prod.fst, ∃ sigs, get_bit_sigs pins pd = .ok sigs := by
    intro pd hp
    obtain ⟨sigs, hs, -⟩ := get_bit_sigs_ok pins pd hH hL
    exact ⟨sigs, hs⟩
  obtain ⟨bsigs, hb, hlook, hcov, hval⟩ :=
    gen_bit_sigs_lookup_from_ok pins (m.map Prod.fst) hok []
  refine ⟨m, bsigs, hm, hb, hkeys, ?_, ?_, ?_⟩
  · intro bit l h
    rcases hlook bit l h with h2 | h2
    · simp [lookupBS] at h2
    · exact h2
  · intro bit h
    exact hcov bit (.inr h)
  · intro y hy
    obtain ⟨l, hlv, hyl⟩ := (mem_bsigsAll_iff bsigs y).mp hy
    rcases hval l hlv with h2 | h2
    · simp at h2
    · obtain ⟨pd, hpd, hg⟩ := h2
      obtain ⟨sigs, hs, hiff⟩ := get_bit_sigs_ok pins pd hH hL
      rw [hg] at hs
      injection hs with hs
      exact ((hiff y).mp (hs ▸ hyl)).1

theorem lookup_sound (pins : List pin_t) (hwf : WFCorpus pins)
    (m : List (pd_t × List (Str × Str))) (bsigs : List (pd_t × List sig_t))
    (hkeys : ∀ k, k ∈ m.map Prod.fst ↔ ∃ s ∈ corpusSigs pins, k ∈ get_pds s.expr)
    (hlook : ∀ bit l, lookupBS bsigs bit = some l →
      ∃ pd ∈ m.map Prod.fst, bit ∈ explode_pd pd ∧
        get_bit_sigs pins pd = .ok l) :
    ∀ bit l y, lookupBS bsigs bit = some l → y ∈ l →
    ∀ x, x ∈ corpusSigs pins → ∀ pd', pd' ∈ get_pds x.expr →
    bit ∈ explode_pd pd' → Reach pins x y ∧ y ∈ corpusSigs pins := by
  intro bit l y hl hyl x hx pd' hpd' hbit
  obtain ⟨b, hb, hbeq⟩ := (mem_explode_pd pd' bit).mp hbit
  obtain ⟨pdk, hpdk, hbitk, hg⟩ := hlook bit l hl
  obtain ⟨b2, hb2, hbeq2⟩ := (mem_explode_pd pdk bit).mp hbitk
  rw [hbeq] at hbeq2
  injection hbeq2 with hreg hmask
  have hb2b : b2 = b := (Finset.singleton_injective hmask).symm
  have hb2m : b ∈ pdk.mask := hb2b ▸ hb2
  obtain ⟨w, hw, hpdkw⟩ := (hkeys pdk).mp hpdk
  obtain ⟨sigs, hs, hiff⟩ := get_bit_sigs_ok pins pdk hwf.1 hwf.2.1
  rw [hg] at hs
  injection hs with hs
  subst hs
  obtain ⟨hycorp, ey, hey, huy⟩ := (hiff y).mp hyl
  obtain ⟨q, hq, hqreg, b3, hb3q, hb3k⟩ := (expr_uses_bits_iff ey pdk).mp huy
  have hstep1 : SigStep pins x w :=
    ⟨⟨pd', hpd', b, hb, pdk, hpdkw, hreg.symm, hb2m⟩, hw⟩
  have hstep2 : SigStep pins w y :=
    ⟨⟨pdk, hpdkw, b3, hb3k, q, by rw [leavesOf, hey]; exact hq, hqreg, hb3q⟩,
      hycorp⟩
  exact ⟨(Relation.ReflTransGen.single hstep1).tail hstep2, hycorp⟩

theorem lookup_complete (pins : List pin_t) (hwf : WFCorpus pins)
    (m : List (pd_t × List (Str × Str))) (bsigs : List (pd_t × List sig_t))
    (hkeys : ∀ k, k ∈ m.map Prod.fst ↔ ∃ s ∈ corpusSigs pins, k ∈ get_pds s.expr)
    (hlook : ∀ bit l, lookupBS bsigs bit = some l →
      ∃ pd ∈ m.map Prod.fst, bit ∈ explode_pd pd ∧
        get_bit_sigs pins pd = .ok l)
    (hcov : ∀ bit, (∃ pd ∈ m.map Prod.fst, bit ∈ explode_pd pd) →
      ∃ l, lookupBS bsigs bit = some l) :
    ∀ x, x ∈ corpusSigs pins → ∀ pd', pd' ∈ get_pds x.expr →
    ∀ b, b ∈ pd'.mask → ∀ y, y ∈ corpusSigs pins → usesBit y pd'.reg b →
    ∃ l, lookupBS bsigs (⟨pd'.reg, {b}⟩ : pd_t) = some l ∧ y ∈ l := by
  intro x hx pd' hpd' b hb y hy huse
  have hbit : (⟨pd'.reg, {b}⟩ : pd_t) ∈ explode_pd pd' :=
    (mem_explode_pd pd' _).mpr ⟨b, hb, rfl⟩
  have hpk : pd' ∈ m.map Prod.fst := (hkeys pd').mpr ⟨x, hx, hpd'⟩
  obtain ⟨l, hl⟩ := hcov _ ⟨pd', hpk, hbit⟩
  refine ⟨l, hl, ?_⟩
  obtain ⟨pdk, hpdk, hbitk, hg⟩ := hlook _ l hl
  obtain ⟨b2, hb2, hbeq2⟩ := (mem_explode_pd pdk _).mp hbitk
  injection hbeq2 with hreg hmask
  have hb2b : b2 = b := (Finset.singleton_injective hmask).symm
  have hb2m : b ∈ pdk.mask := hb2b ▸ hb2
  obtain ⟨sigs, hs, hiff⟩ := get_bit_sigs_ok pins pdk hwf.1 hwf.2.1
  rw [hg] at hs
  injection hs with hs
  subst hs
  obtain ⟨q, hq, hqreg, hbq⟩ := huse
  obtain ⟨ey, hey⟩ : ∃ ey, y.expr = some ey := by
    rcases h : y.expr with _ | ey
    · exact absurd h (corpusSigs_expr pins hwf y hy)
    · exact ⟨ey, rfl⟩
  refine (hiff y).mpr ⟨hy, ey, hey, (expr_uses_bits_iff ey pdk).mpr
    ⟨q, ?_, by rw [hqreg, ← hreg], b, hbq, hb2m⟩⟩
  rw [leavesOf, hey] at hq
  exact hq

theorem corpus_expr_some (pins : List pin_t) (hwf : WFCorpus pins)
    (s : sig_t) (hs : s ∈ corpusSigs pins) : ∃ e, s.expr = some e := by
  rcases h : s.expr with _ | e
  · exact absurd h (corpusSigs_expr pins hwf s hs)
  · exact ⟨e, rfl⟩

theorem Hcands_inst (pins : List pin_t) (hwf : WFCorpus pins)
    (m : List (pd_t × List (Str × Str))) (bsigs : List (pd_t × List sig_t))
    (hkeys : ∀ k, k ∈ m.map Prod.fst ↔ ∃ s ∈ corpusSigs pins, k ∈ get_pds s.expr)
    (hcov : ∀ bit, (∃ pd ∈ m.map Prod.fst, bit ∈ explode_pd pd) →
      ∃ l, lookupBS bsigs bit = some l)
    (hBcorp : ∀ y, y ∈ bsigsAll bsigs → y ∈ corpusSigs pins) :
    ∀ s ∈ bsigsAll bsigs, ∃ cands, floodCands bsigs s = .ok cands ∧
      (∀ y ∈ cands, y ∈ bsigsAll bsigs) ∧
      cands.length ≤ totalCandBound bsigs := by
  intro s hs
  have hscorp := hBcorp s hs
  obtain ⟨e, he⟩ := corpus_expr_some pins hwf s hscorp
  have hc : ∀ pd ∈ get_simple_pds e, ∀ bit ∈ explode_pd pd,
      ∃ l, lookupBS bsigs bit = some l := by
    intro pd hpd bit hbit
    refine hcov bit ⟨pd, ?_, hbit⟩
    rw [get_simple_pds_eq] at hpd
    exact (hkeys pd).mpr ⟨s, hscorp, by rw [he]; exact hpd⟩
  obtain ⟨cands, hok, hiff, hlen⟩ := floodCands_ok bsigs s e he hc
  refine ⟨cands, hok, ?_, le_trans hlen (candBound_le_total bsigs s hs)⟩
  intro y hy
  obtain ⟨pd, hpd, bit, hbit, l, hl, hyl⟩ := (hiff y).mp hy
  exact (mem_bsigsAll_iff bsigs y).mpr
    ⟨l, lookupBS_mem_values bsigs bit l hl, hyl⟩

theorem cands_member_reach (pins : List pin_t) (hwf : WFCorpus pins)
    (m : List (pd_t × List (Str × Str))) (bsigs : List (pd_t × List sig_t))
    (hkeys : ∀ k, k ∈ m.map Prod.fst ↔ ∃ s ∈ corpusSigs pins, k ∈ get_pds s.expr)
    (hlook : ∀ bit l, lookupBS bsigs bit = some l →
      ∃ pd ∈ m.map Prod.fst, bit ∈ explode_pd pd ∧
        get_bit_sigs pins pd = .ok l)
    (hcov : ∀ bit, (∃ pd ∈ m.map Prod.fst, bit ∈ explode_pd pd) →
      ∃ l, lookupBS bsigs bit = some l) :
    ∀ x, x ∈ corpusSigs pins → ∀ cands, floodCands bsigs x = .ok cands →
    ∀ y ∈ cands, Reach pins x y ∧ y ∈ corpusSigs pins := by
  intro x hx cands hcands y hy
  obtain ⟨e, he⟩ := corpus_expr_some pins hwf x hx
  have hc : ∀ pd ∈ get_simple_pds e, ∀ bit ∈ explode_pd pd,
      ∃ l, lookupBS bsigs bit = some l := by
    intro pd hpd bit hbit
    refine hcov bit ⟨pd, ?_, hbit⟩
    rw [get_simple_pds_eq] at hpd
    exact (hkeys pd).mpr ⟨x, hx, by rw [he]; exact hpd⟩
  obtain ⟨cands2, hok, hiff, -⟩ := floodCands_ok bsigs x e he hc
  rw [hcands] at hok
  injection hok with hok
  subst hok
  obtain ⟨pd, hpd, bit, hbit, l, hl, hyl⟩ := (hiff y).mp hy
  refine lookup_sound pins hwf m bsigs hkeys hlook bit l y hl hyl x hx pd ?_ hbit
  rw [get_simple_pds_eq] at hpd
  rw [he]
  exact hpd

theorem cands_complete_mem (pins : List pin_t) (hwf : WFCorpus pins)
    (m : List (pd_t × List (Str × Str))) (bsigs : List (pd_t × List sig_t))
    (hkeys : ∀ k, k ∈ m.map Prod.fst ↔ ∃ s ∈ corpusSigs pins, k ∈ get_pds s.expr)
    (hlook : ∀ bit l, lookupBS bsigs bit = some l →
      ∃ pd ∈ m.map Prod.fst, bit ∈ explode_pd pd ∧
        get_bit_sigs pins pd = .ok l)
    (hcov : ∀ bit, (∃ pd ∈ m.map Prod.fst, bit ∈ explode_pd pd) →
      ∃ l, lookupBS bsigs bit = some l) :
    ∀ x, x ∈ corpusSigs pins → ∀ cands, floodCands bsigs x = .ok cands →
    ∀ y, SigStep pins x y → y ∈ cands := by
  intro x hx cands hcands y hstep
  obtain ⟨⟨pd', hpd', b, hb, huse⟩, hycorp⟩ := hstep
  obtain ⟨e, he⟩ := corpus_expr_some pins hwf x hx
  have hc : ∀ pd ∈ get_simple_pds e, ∀ bit ∈ explode_pd pd,
      ∃ l, lookupBS bsigs bit = some l := by
    intro pd hpd bit hbit
    refine hcov bit ⟨pd, ?_, hbit⟩
    rw [get_simple_pds_eq] at hpd
    exact (hkeys pd).mpr ⟨x, hx, by rw [he]; exact hpd⟩
  obtain ⟨cands2, hok, hiff, -⟩ := floodCands_ok bsigs x e he hc
  rw [hcands] at hok
  injection hok with hok
  subst hok
  obtain ⟨l, hl, hyl⟩ := lookup_complete pins hwf m bsigs hkeys hlook hcov
    x hx pd' hpd' b hb y hycorp huse
  refine (hiff y).mpr ⟨pd', ?_, ⟨pd'.reg, {b}⟩, (mem_explode_pd pd' _).mpr
    ⟨b, hb, rfl⟩, l, hl, hyl⟩
  rw [get_simple_pds_eq]
  rw [leavesOf, he] at hpd'
  exact hpd'

theorem flood_key_ok (pins : List pin_t) (hwf : WFCorpus pins)
    (m : List (pd_t × List (Str × Str))) (bsigs : List (pd_t × List sig_t))
    (hkeys : ∀ k, k ∈ m.map Prod.fst ↔ ∃ s ∈ corpusSigs pins, k ∈ get_pds s.expr)
    (hlook : ∀ bit l, lookupBS bsigs bit = some l →
      ∃ pd ∈ m.map Prod.fst, bit ∈ explode_pd pd ∧
        get_bit_sigs pins pd = .ok l)
    (hcov : ∀ bit, (∃ pd ∈ m.map Prod.fst, bit ∈ explode_pd pd) →
      ∃ l, lookupBS bsigs bit = some l)
    (hBcorp : ∀ y, y ∈ bsigsAll bsigs → y ∈ corpusSigs pins)
    (pd : pd_t) (hpd : pd ∈ m.map Prod.fst) :
    ∃ out, seedFloodKey bsigs pd = .ok out ∧
      ∃ z ∈ corpusSigs pins, pd ∈ get_pds z.expr ∧
        (∀ y, y ∈ out ↔ Reach pins z y) ∧
        (∀ w ∈ corpusSigs pins, pd ∈ get_pds w.expr → w ∈ out) := by
  obtain ⟨z, hz, hpdz⟩ := (hkeys pd).mp hpd
  have hcovbits : ∀ bit ∈ explode_pd pd, ∃ l, lookupBS bsigs bit = some l :=
    fun bit hbit => hcov bit ⟨pd, hpd, hbit⟩
  obtain ⟨q, hq, hqmem, -⟩ := foldlM_bits_ok bsigs (explode_pd pd) hcovbits []
  have hqmem2 : ∀ y, y ∈ q ↔ ∃ bit ∈ explode_pd pd, ∃ l,
      lookupBS bsigs bit = some l ∧ y ∈ l := by
    intro y
    rw [hqmem y]
    simp
  have hqB : ∀ s ∈ q, s ∈ bsigsAll bsigs := by
    intro s hs
    obtain ⟨bit, hbit, l, hl, hsl⟩ := (hqmem2 s).mp hs
    exact (mem_bsigsAll_iff bsigs s).mpr
      ⟨l, lookupBS_mem_values bsigs bit l hl, hsl⟩
  have hqG : ∀ s ∈ q, Reach pins z s := by
    intro s hs
    obtain ⟨bit, hbit, l, hl, hsl⟩ := (hqmem2 s).mp hs
    exact (lookup_sound pins hwf m bsigs hkeys hlook bit l s hl hsl
      z hz pd hpdz hbit).1
  have hfuel : ((bsigsAll bsigs).toFinset \ ([] : List sig_t).toFinset).card *
      (totalCandBound bsigs + 2) + q.length + 1 ≤ floodFuel bsigs q := by
    unfold floodFuel
    have h1 : ((bsigsAll bsigs).toFinset \ ([] : List sig_t).toFinset).card ≤
        (bsigsAll bsigs).length + 1 := by
      have h2 : (([] : List sig_t).toFinset : Finset sig_t) = ∅ := rfl
      rw [h2, Finset.sdiff_empty]
      exact le_trans (bsigsAll bsigs).toFinset_card_le (by omega)
    have h3 := Nat.mul_le_mul_right (totalCandBound bsigs + 2) h1
    omega
  obtain ⟨out, hflood, hoq, -, hoG, hoB, hoC⟩ :=
    flood_spec bsigs (totalCandBound bsigs) (fun y => Reach pins z y)
      (Hcands_inst pins hwf m bsigs hkeys hcov hBcorp)
      (by
        intro x hxB hGx cands hc y hy
        exact hGx.trans (cands_member_reach pins hwf m bsigs hkeys hlook hcov
          x (hBcorp x hxB) cands hc y hy).1)
      (floodFuel bsigs q) q [] hqB (by simp) hqG (by simp)
      (by intro x hx; simp at hx) hfuel
  have hseed : ∀ w ∈ corpusSigs pins, pd ∈ get_pds w.expr → w ∈ q := by
    intro w hw hpdw
    have hmask : pd.mask ≠ ∅ := hwf.2.2 w hw pd hpdw
    obtain ⟨b, hb⟩ := Finset.nonempty_iff_ne_empty.mpr hmask
    obtain ⟨l, hl, hwl⟩ := lookup_complete pins hwf m bsigs hkeys hlook hcov
      w hw pd hpdw b hb w hw ⟨pd, hpdw, rfl, hb⟩
    exact (hqmem2 w).mpr ⟨⟨pd.reg, {b}⟩, (mem_explode_pd pd _).mpr
      ⟨b, hb, rfl⟩, l, hl, hwl⟩
  refine ⟨out, ?_, z, hz, hpdz, ?_, ?_⟩
  · unfold seedFloodKey
    rw [hq]
    exact hflood
  · intro y
    constructor
    · exact hoG y
    · intro hry
      have hzout : z ∈ out := hoq z (hseed z hz hpdz)
      clear hoq hqB hqG hqmem hqmem2 hq hseed
      induction hry with
      | refl => exact hzout
      | tail hxb hbc ih =>
        rename_i b2 c2
        have hb2out := ih
        have hb2B := hoB b2 hb2out
        obtain ⟨cands, hc, -, -⟩ :=
          Hcands_inst pins hwf m bsigs hkeys hcov hBcorp b2 hb2B
        have hccands := cands_complete_mem pins hwf m bsigs hkeys hlook hcov
          b2 (hBcorp b2 hb2B) cands hc c2 hbc
        exact hoC b2 hb2out cands hc c2 hccands
  · intro w hw hpdw
    exact hoq w (hseed w hw hpdw)

theorem find_networks_char (pins : List pin_t) (hwf : WFCorpus pins) :
    ∃ netsL, find_networks_list pins = .ok netsL ∧ netsL.Nodup ∧
      (∀ n ∈ netsL, ∃ z ∈ corpusSigs pins, ∀ y, y ∈ n ↔ Reach pins z y) ∧
      (∀ z ∈ corpusSigs pins, ∃ n ∈ netsL, z ∈ n) := by
  obtain ⟨m, bsigs, hm, hb, hkeys, hlook, hcov, hBcorp⟩ :=
    networks_context pins hwf
  obtain ⟨r, hr, hF⟩ := mapM_ok_of_forall
    (seedFloodKey bsigs)
    (fun pd out => ∃ z ∈ corpusSigs pins, pd ∈ get_pds z.expr ∧
      (∀ y, y ∈ out ↔ Reach pins z y) ∧
      (∀ w ∈ corpusSigs pins, pd ∈ get_pds w.expr → w ∈ out))
    (m.map Prod.fst)
    (fun pd hpd => flood_key_ok pins hwf m bsigs hkeys hlook hcov hBcorp pd hpd)
  refine ⟨(r.map List.toFinset).dedup, ?_, List.nodup_dedup _, ?_, ?_⟩
  · unfold find_networks_list
    rw [hm]
    simp only [hb]
    rw [hr]
  · intro n hn
    rw [List.mem_dedup, List.mem_map] at hn
    obtain ⟨out, hout, houtn⟩ := hn
    obtain ⟨pd, hpd, z, hz, hpdz, hiff, -⟩ := forall₂_mem_right hF out hout
    refine ⟨z, hz, fun y => ?_⟩
    rw [← houtn, List.mem_toFinset]
    exact hiff y
  · intro z hz
    obtain ⟨e, he⟩ := corpus_expr_some pins hwf z hz
    have hne : get_pds z.expr ≠ [] := by
      rw [he]
      exact get_pds_ne_nil e
    obtain ⟨pd0, hpd0⟩ := List.exists_mem_of_ne_nil _ hne
    have hpd0k : pd0 ∈ m.map Prod.fst := (hkeys pd0).mpr ⟨z, hz, hpd0⟩
    obtain ⟨out, hout, z2, hz2, hpdz2, hiff2, hwseed⟩ :=
      forall₂_mem_left hF pd0 hpd0k
    refine ⟨out.toFinset, ?_, ?_⟩
    · rw [List.mem_dedup, List.mem_map]
      exact ⟨out, hout, rfl⟩
    · rw [List.mem_toFinset]
      exact hwseed z hz hpd0

theorem net_eq_of_common (pins : List pin_t) (n1 n2 : Finset sig_t)
    (z1 z2 : sig_t) (hz1 : z1 ∈ corpusSigs pins) (hz2 : z2 ∈ corpusSigs pins)
    (h1 : ∀ y, y ∈ n1 ↔ Reach pins z1 y) (h2 : ∀ y, y ∈ n2 ↔ Reach pins z2 y)
    (s : sig_t) (hs1 : s ∈ n1) (hs2 : s ∈ n2) : n1 = n2 := by
  have hr1 : Reach pins z1 s := (h1 s).mp hs1
  have hr2 : Reach pins z2 s := (h2 s).mp hs2
  have h21 : Reach pins z2 z1 := hr2.trans (reach_symm pins z1 s hz1 hr1)
  have h12 : Reach pins z1 z2 := hr1.trans (reach_symm pins z2 s hz2 hr2)
  ext y
  rw [h1 y, h2 y]
  exact ⟨fun h => h21.trans h, fun h => h12.trans h⟩

/-- C1 (amended): under the well-formedness assumptions WFCorpus -- every
pin's high signal carries an expression, every present low signal carries
an expression, and every referenced descriptor denotes at least one bit --
find_networks (lines 221-242) succeeds and its networks partition the full
signal set: every corpus signal lies in exactly one network, the union of
the networks is the whole signal set, and distinct networks are disjoint.
Without the nonempty-mask assumption the counterexample above shows a
signal lying in no network. -/
theorem C1_network_partition (pins : List pin_t) (hwf : WFCorpus pins) :
    ∃ nets, find_networks pins = .ok nets ∧
      (∀ s ∈ corpusSigs pins, ∃! n, n ∈ nets ∧ s ∈ n) ∧
      nets.biUnion id = (corpusSigs pins).toFinset ∧
      (∀ n1 ∈ nets, ∀ n2 ∈ nets, n1 ≠ n2 → Disjoint n1 n2) := by
  obtain ⟨netsL, hl, -, hchar, hcover⟩ := find_networks_char pins hwf
  refine ⟨netsL.toFinset, ?_, ?_, ?_, ?_⟩
  · unfold find_networks
    rw [hl]
  · intro s hs
    obtain ⟨n, hn, hsn⟩ := hcover s hs
    refine ⟨n, ⟨List.mem_toFinset.mpr hn, hsn⟩, ?_⟩
    rintro n' ⟨hn', hsn'⟩
    rw [List.mem_toFinset] at hn'
    obtain ⟨z1, hz1, h1⟩ := hchar n' hn'
    obtain ⟨z2, hz2, h2⟩ := hchar n hn
    exact net_eq_of_common pins n' n z1 z2 hz1 hz2 h1 h2 s hsn' hsn
  · ext y
    rw [Finset.mem_biUnion, List.mem_toFinset]
    constructor
    · rintro ⟨n, hn, hyn⟩
      rw [List.mem_toFinset] at hn
      obtain ⟨z, hz, hc1⟩ := hchar n hn
      have hyn2 : y ∈ n := hyn
      exact reach_corpus pins z y hz ((hc1 y).mp hyn2)
    · intro hy
      obtain ⟨n, hn, hyn⟩ := hcover y hy
      exact ⟨n, List.mem_toFinset.mpr hn, hyn⟩
  · intro n1 hn1 n2 hn2 hne
    rw [Finset.disjoint_left]
    intro s hs1 hs2
    rw [List.mem_toFinset] at hn1 hn2
    obtain ⟨z1, hz1, h1⟩ := hchar n1 hn1
    obtain ⟨z2, hz2, h2⟩ := hchar n2 hn2
    exact hne (net_eq_of_common pins n1 n2 z1 z2 hz1 hz2 h1 h2 s hs1 hs2)

/-- C3 (amended): under WFCorpus, find_networks succeeds and returns
exactly the set of transitive bit-sharing components of the corpus: a set
of signals is one of the returned networks iff, for some corpus signal z,
it is the set of signals reachable from z by repeatedly following shared
individual configuration bits.  The flood fills are seeded once per key of
get_all_pds (lines 163-176) -- every leaf descriptor of every expression,
simple or compound, single- or multi-bit -- and duplicate floods reaching
the same component collapse in the final deduplication (line 242). -/
theorem C3_networks_are_components (pins : List pin_t) (hwf : WFCorpus pins) :
    ∃ nets, find_networks pins = .ok nets ∧
      ∀ n, n ∈ nets ↔ ∃ z ∈ corpusSigs pins, ∀ y, y ∈ n ↔ Reach pins z y := by
  obtain ⟨netsL, hl, -, hchar, hcover⟩ := find_networks_char pins hwf
  refine ⟨netsL.toFinset, ?_, ?_⟩
  · unfold find_networks
    rw [hl]
  · intro n
    rw [List.mem_toFinset]
    constructor
    · exact hchar n
    · rintro ⟨z, hz, hcz⟩
      obtain ⟨n', hn', hzn'⟩ := hcover z hz
      obtain ⟨z', hz', hcz'⟩ := hchar n' hn'
      have heq : n = n' := net_eq_of_common pins n n' z z' hz hz' hcz hcz' z
        ((hcz z).mpr Relation.ReflTransGen.refl) hzn'
      rw [heq]
      exact hn'

theorem mem_memberPds (rels : Finset sig_t) (b : pd_t) :
    b ∈ memberPds rels ↔ ∃ s ∈ rels, b ∈ get_pds s.expr := by
  unfold memberPds
  rw [Finset.mem_biUnion]
  constructor
  · rintro ⟨s, hs, hb⟩
    exact ⟨s, hs, List.mem_toFinset.mp hb⟩
  · rintro ⟨s, hs, hb⟩
    exact ⟨s, hs, List.mem_toFinset.mpr hb⟩

theorem get_sig_pin_some (pins : List pin_t) (s : sig_t)
    (hs : s ∈ corpusSigs pins) : ∃ p, get_sig_pin pins s = some p := by
  obtain ⟨pin, hpin, hps⟩ := (mem_corpusSigs pins s).mp hs
  have hfind : (pins.find? (fun pin => pin.high = some s || pin.low = some s)).isSome := by
    rw [List.find?_isSome]
    refine ⟨pin, hpin, ?_⟩
    rcases hps with h | h
    · simp [h]
    · simp [h]
  rcases hp : pins.find? (fun pin => pin.high = some s || pin.low = some s) with _ | p
  · rw [hp] at hfind
    simp at hfind
  · exact ⟨p, hp⟩

theorem relbits_disjoint_of_chars (pins : List pin_t) (hwf : WFCorpus pins)
    (n1 n2 : Finset sig_t) (z1 z2 : sig_t)
    (hz1 : z1 ∈ corpusSigs pins) (hz2 : z2 ∈ corpusSigs pins)
    (h1 : ∀ y, y ∈ n1 ↔ Reach pins z1 y) (h2 : ∀ y, y ∈ n2 ↔ Reach pins z2 y)
    (hne : n1 ≠ n2) : Disjoint (relbits pins n1) (relbits pins n2) := by
  rw [Finset.disjoint_left]
  intro b hb1 hb2
  have hm1 : b ∈ memberPds n1 := Finset.filter_subset _ _ hb1
  have hm2 : b ∈ memberPds n2 := Finset.filter_subset _ _ hb2
  obtain ⟨s1, hs1, hbs1⟩ := (mem_memberPds n1 b).mp hm1
  obtain ⟨s2, hs2, hbs2⟩ := (mem_memberPds n2 b).mp hm2
  have hs1c : s1 ∈ corpusSigs pins :=
    reach_corpus pins z1 s1 hz1 ((h1 s1).mp hs1)
  have hs2c : s2 ∈ corpusSigs pins :=
    reach_corpus pins z2 s2 hz2 ((h2 s2).mp hs2)
  have hmask : b.mask ≠ ∅ := hwf.2.2 s1 hs1c b hbs1
  obtain ⟨bb, hbb⟩ := Finset.nonempty_iff_ne_empty.mpr hmask
  have hstep : SigStep pins s1 s2 :=
    ⟨⟨b, hbs1, bb, hbb, b, hbs2, rfl, hbb⟩, hs2c⟩
  have hs2n1 : s2 ∈ n1 := (h1 s2).mpr (((h1 s1).mp hs1).tail hstep)
  exact hne (net_eq_of_common pins n1 n2 z1 z2 hz1 hz2 h1 h2 s2 hs2n1 hs2)

theorem print_go_ok (pins : List pin_t) :
    ∀ (L : List (Finset sig_t)) (allbits : Finset pd_t),
    (∀ n ∈ L, ∀ p ∈ netPins pins n, p.isSome) →
    List.Pairwise (fun a b => Disjoint (relbits pins a) (relbits pins b)) L →
    (∀ n ∈ L, Disjoint allbits (relbits pins n)) →
    ∃ reps, print_networks_go pins allbits L = .ok reps := by
  intro L
  induction L with
  | nil => exact fun allbits _ _ _ => ⟨[], rfl⟩
  | cons rels rest ih =>
    intro allbits hOwn hPW hA
    rcases hPW with _ | ⟨hhead, htail⟩
    by_cases hcard : rels.card < 2
    · obtain ⟨reps, hreps⟩ := ih allbits
        (fun n hn => hOwn n (by simp [hn])) htail
        (fun n hn => hA n (by simp [hn]))
      refine ⟨reps, ?_⟩
      unfold print_networks_go
      rw [if_pos hcard]
      exact hreps
    · have hrep : netReport pins rels = .ok
          ⟨(relbits pins rels).image (fun b => (b, cCount pins rels b)),
           (netPins pins rels).image (fun p =>
             ((p.map pin_t.other).getD [],
              ((rels.filter (fun s => get_sig_pin pins s = p)).image sig_t.sig),
              selbits pins rels p))⟩ := by
        unfold netReport
        rw [if_pos (hOwn rels (by simp))]
      obtain ⟨more, hmore⟩ := ih (allbits ∪ relbits pins rels)
        (fun n hn => hOwn n (by simp [hn])) htail
        (fun n hn => by
          rw [Finset.disjoint_union_left]
          exact ⟨hA n (by simp [hn]), hhead n hn⟩)
      refine ⟨⟨(relbits pins rels).image (fun b => (b, cCount pins rels b)),
           (netPins pins rels).image (fun p =>
             ((p.map pin_t.other).getD [],
              ((rels.filter (fun s => get_sig_pin pins s = p)).image sig_t.sig),
              selbits pins rels p))⟩ :: more, ?_⟩
      unfold print_networks_go
      rw [if_neg hcard]
      simp only [hrep]
      rw [if_pos (hA rels (by simp))]
      simp only [hmore]

/-- C6 (amended): under WFCorpus the whole network phase -- find_networks
followed by print_networks with its running assertion (line 276) that the
common-bit sets of printed networks stay pairwise disjoint -- completes
without error: distinct networks are distinct bit-sharing components, and
when every referenced descriptor denotes at least one bit a descriptor
common to two networks would merge them.  The counterexample above shows
the assertion failing on an empty-mask descriptor. -/
theorem C6_no_assert_failure (pins : List pin_t) (hwf : WFCorpus pins) :
    ∃ reports, runNetworks pins = .ok reports := by
  obtain ⟨netsL, hl, hnd, hchar, -⟩ := find_networks_char pins hwf
  have hOwn : ∀ n ∈ netsL, ∀ p ∈ netPins pins n, p.isSome := by
    intro n hn p hp
    obtain ⟨z, hz, hc⟩ := hchar n hn
    unfold netPins at hp
    rw [Finset.mem_image] at hp
    obtain ⟨s, hs, hps⟩ := hp
    have hsc : s ∈ corpusSigs pins := reach_corpus pins z s hz ((hc s).mp hs)
    obtain ⟨q, hq⟩ := get_sig_pin_some pins s hsc
    rw [← hps, hq]
    rfl
  have hPW : List.Pairwise
      (fun a b => Disjoint (relbits pins a) (relbits pins b)) netsL := by
    refine List.Pairwise.imp_of_mem ?_ hnd
    intro a b ha hb hne
    obtain ⟨z1, hz1, h1⟩ := hchar a ha
    obtain ⟨z2, hz2, h2⟩ := hchar b hb
    exact relbits_disjoint_of_chars pins hwf a b z1 z2 hz1 hz2 h1 h2 hne
  obtain ⟨reps, hr⟩ := print_go_ok pins netsL ∅ hOwn hPW
    (fun n hn => Finset.disjoint_left.mpr (fun b hb => by simp at hb))
  refine ⟨reps, ?_⟩
  unfold runNetworks
  rw [hl]
  exact hr

theorem get_bit_sigs_first_null (pins : List pin_t) (p : pin_t) (bit : pd_t)
    (hH : ∀ pin ∈ pins, pin.high ≠ none)
    (hL : ∀ pin ∈ pins, ∀ ls, pin.low = some ls → ls.expr ≠ none)
    (hFirst : firstNullHigh pins = some p) :
    get_bit_sigs pins bit = .error (.exitDiag p) := by
  induction pins with
  | nil => simp [firstNullHigh] at hFirst
  | cons pin rest ih =>
    rcases hhigh : pin.high with _ | hi
    · exact absurd hhigh (hH pin (by simp))
    rcases hex : hi.expr with _ | he
    · have hp : p = pin := by
        unfold firstNullHigh at hFirst
        rw [List.find?_cons_of_pos] at hFirst
        · injection hFirst with h
          exact h.symm
        · simp [hhigh, hex]
      subst hp
      unfold get_bit_sigs
      simp only [hhigh, hex]
    · have hFirst2 : firstNullHigh rest = some p := by
        unfold firstNullHigh at hFirst ⊢
        rw [List.find?_cons_of_neg] at hFirst
        · exact hFirst
        · simp [hhigh, hex]
      have hrest := ih (fun q hq => hH q (by simp [hq]))
        (fun q hq => hL q (by simp [hq])) hFirst2
      unfold get_bit_sigs
      simp only [hhigh, hex]
      rcases hlo : pin.low with _ | lo
      · simp only [hlo, hrest, Except.map]
      · rcases hlex : lo.expr with _ | le
        · exact absurd hlex (hL pin (by simp) lo hlo)
        · simp only [hlo, hlex, hrest, Except.map]

/-- C5 (amended): when every pin record has a high signal, present low
signals carry expressions, p is the first pin whose high signal has a null
expression, and some corpus signal references at least one descriptor,
then the network phase aborts with the sys.exit(1) diagnostic of
get_bit_sigs (lines 195-198) carrying exactly the record p, and no network
report is produced.  The reference assumption is essential: the
counterexample above shows the malformed record being silently skipped
when no descriptor is referenced anywhere. -/
theorem C5_null_high_aborts (pins : List pin_t) (p : pin_t)
    (hH : ∀ pin ∈ pins, pin.high ≠ none)
    (hL : ∀ pin ∈ pins, ∀ ls, pin.low = some ls → ls.expr ≠ none)
    (hFirst : firstNullHigh pins = some p)
    (hRef : ∃ s ∈ corpusSigs pins, get_pds s.expr ≠ []) :
    find_networks pins = .error (.exitDiag p) ∧
    runNetworks pins = .error (.exitDiag p) := by
  obtain ⟨m, hm, hkeys⟩ := get_all_pds_ok pins hH
  obtain ⟨s0, hs0, hne⟩ := hRef
  obtain ⟨k0, hk0⟩ := List.exists_mem_of_ne_nil _ hne
  have hk0keys : k0 ∈ m.map Prod.fst := (hkeys k0).mpr ⟨s0, hs0, hk0⟩
  rcases hmk : m.map Prod.fst with _ | ⟨k1, krest⟩
  · rw [hmk] at hk0keys
    simp at hk0keys
  have hgbs : gen_bit_sigs_lookup pins (m.map Prod.fst) = .error (.exitDiag p) := by
    rw [hmk]
    unfold gen_bit_sigs_lookup gen_bit_sigs_lookup_from
    rw [get_bit_sigs_first_null pins p k1 hH hL hFirst]
  have hfl : find_networks_list pins = .error (.exitDiag p) := by
    unfold find_networks_list
    rw [hm]
    simp only [hgbs]
  refine ⟨?_, ?_⟩
  · unfold find_networks
    rw [hfl]
  · unfold runNetworks
    rw [hfl]

theorem biUnion_netPins_eq (pins : List pin_t) (rels : Finset sig_t) :
    (netPins pins rels).biUnion (pinGroupPds pins rels) = memberPds rels := by
  ext b
  rw [Finset.mem_biUnion, mem_memberPds]
  constructor
  · rintro ⟨p, hp, hb⟩
    unfold pinGroupPds at hb
    rw [Finset.mem_biUnion] at hb
    obtain ⟨s, hs, hbs⟩ := hb
    rw [Finset.mem_filter] at hs
    exact ⟨s, hs.1, List.mem_toFinset.mp hbs⟩
  · rintro ⟨s, hs, hbs⟩
    refine ⟨get_sig_pin pins s, Finset.mem_image.mpr ⟨s, hs, rfl⟩, ?_⟩
    unfold pinGroupPds
    rw [Finset.mem_biUnion]
    exact ⟨s, Finset.mem_filter.mpr ⟨hs, rfl⟩, List.mem_toFinset.mpr hbs⟩

theorem pinGroup_subset_member (pins : List pin_t) (rels : Finset sig_t)
    (p : Option pin_t) (hp : p ∈ netPins pins rels) :
    pinGroupPds pins rels p ⊆ memberPds rels := by
  intro b hb
  rw [← biUnion_netPins_eq pins rels, Finset.mem_biUnion]
  exact ⟨p, hp, hb⟩

theorem sumC_eq_sum_cCount (pins : List pin_t) (rels : Finset sig_t) :
    sumC pins rels = ∑ b ∈ memberPds rels, cCount pins rels b := by
  unfold sumC cCount
  have h1 : ∀ p ∈ netPins pins rels, (pinGroupPds pins rels p).card =
      ∑ b ∈ memberPds rels, if b ∈ pinGroupPds pins rels p then 1 else 0 := by
    intro p hp
    have h2 : pinGroupPds pins rels p =
        (memberPds rels).filter (· ∈ pinGroupPds pins rels p) := by
      ext b
      rw [Finset.mem_filter]
      constructor
      · intro hb
        exact ⟨pinGroup_subset_member pins rels p hp hb, hb⟩
      · exact And.right
    conv_lhs => rw [h2]
    exact Finset.card_filter (fun b => b ∈ pinGroupPds pins rels p) (memberPds rels)
  rw [Finset.sum_congr rfl h1, Finset.sum_comm]
  refine Finset.sum_congr rfl ?_
  intro b hb
  exact (Finset.card_filter (fun p => b ∈ pinGroupPds pins rels p)
    (netPins pins rels)).symm

theorem lenC_eq_card (pins : List pin_t) (rels : Finset sig_t) :
    lenC pins rels = (memberPds rels).card := by
  unfold lenC
  rw [biUnion_netPins_eq]

theorem cCount_pos (pins : List pin_t) (rels : Finset sig_t) (b : pd_t)
    (hb : b ∈ memberPds rels) : 1 ≤ cCount pins rels b := by
  rw [← biUnion_netPins_eq pins rels, Finset.mem_biUnion] at hb
  obtain ⟨p, hp, hbp⟩ := hb
  unfold cCount
  rw [Nat.succ_le_iff, Finset.card_pos]
  exact ⟨p, Finset.mem_filter.mpr ⟨hp, hbp⟩⟩

theorem sumC_eq_lenC_iff (pins : List pin_t) (rels : Finset sig_t) :
    sumC pins rels = lenC pins rels ↔
      ∀ b ∈ memberPds rels, cCount pins rels b = 1 := by
  rw [sumC_eq_sum_cCount, lenC_eq_card, Finset.card_eq_sum_ones, eq_comm,
    Finset.sum_eq_sum_iff_of_le (fun b hb => cCount_pos pins rels b hb)]
  constructor
  · intro h b hb
    exact (h b hb).symm
  · intro h b hb
    exact (h b hb).symm

/-- C2 (amended): counting is per owning pin (a pin's high and low signal
leaves are unioned first, so one pin casts one vote per descriptor), and a
descriptor of a network is classified common exactly when more than one
owning pin references it, or when every counted descriptor of the network
is referenced by exactly one owning pin -- the code's degenerate
`sum(c.values()) == len(c)` clause (line 263), which the counterexample
above distinguishes from the spec's "referenced by every pin" reading.  A
pin's printed distinguishing set is its referenced descriptors minus the
common set (line 273). -/
theorem C2_common_classification (pins : List pin_t) (rels : Finset sig_t)
    (b : pd_t) :
    (b ∈ relbits pins rels ↔ b ∈ memberPds rels ∧
      (1 < cCount pins rels b ∨
        ∀ c ∈ memberPds rels, cCount pins rels c = 1)) ∧
    ∀ p, selbits pins rels p = pinGroupPds pins rels p \ relbits pins rels := by
  constructor
  · unfold relbits
    rw [Finset.mem_filter]
    exact and_congr_right (fun _ =>
      or_congr_right (sumC_eq_lenC_iff pins rels))
  · intro p
    rfl

theorem C1_network_partition_witness :
    ∃ nets, find_networks pins2 = .ok nets ∧
      (∀ s ∈ corpusSigs pins2, ∃! n, n ∈ nets ∧ s ∈ n) ∧
      nets.biUnion id = (corpusSigs pins2).toFinset ∧
      (∀ n1 ∈ nets, ∀ n2 ∈ nets, n1 ≠ n2 → Disjoint n1 n2) :=
  C1_network_partition pins2 (by decide)

theorem C3_networks_are_components_witness :
    ∃ nets, find_networks pins1 = .ok nets ∧
      ∀ n, n ∈ nets ↔ ∃ z ∈ corpusSigs pins1, ∀ y, y ∈ n ↔ Reach pins1 z y :=
  C3_networks_are_components pins1 (by decide)

theorem C5_null_high_aborts_witness :
    find_networks [pinBad, pinGood] = .error (.exitDiag pinBad) ∧
    runNetworks [pinBad, pinGood] = .error (.exitDiag pinBad) :=
  C5_null_high_aborts [pinBad, pinGood] pinBad (by decide) (by decide)
    (by decide) (by decide)

theorem C6_no_assert_failure_witness :
    ∃ reports, runNetworks pins2 = .ok reports :=
  C6_no_assert_failure pins2 (by decide)
